import Mathlib

/-!
Shallow embedding of the best-first search core in `src/search/a_star.py`
(pyperplan-style A*, weighted A* and greedy best-first search), together with
proofs of the specified properties.

The search state (`AState`), the per-iteration step (`astarStep`), the
expansion of successors (`expandSuccessors`), the ordering policies and the
wrapper functions are translated directly from the source.  The Python
`while open:` loop is embedded as a fuel-indexed iteration (`astarLoop`);
`SearchResult.outOfFuel` marks runs whose fuel was insufficient, `noSolution`
is the `return None` of the source, and `solution` the returned plan.
Heuristic values are rationals extended with `⊤` (the `float("inf")`
sentinel of the source).  The heap of the source is embedded as a list from
which `popMin` removes a minimal element in the lexicographic entry order;
tiebreakers of live entries are pairwise distinct, so the minimum is unique
and the embedding is faithful to `heapq`.
-/

namespace AStar

/-- Heuristic values: nonnegative rationals in the intended contract, with
`⊤` embedding the `float("inf")` dead-end sentinel of the source. -/
abbrev HVal : Type := WithTop ℚ

/-- Modelled from the spec: the node/tree collaborator (the search-space
module is not part of the search core source).  A search node is a root for
the initial state, or a child built from a parent node, an operator and a
successor state; nodes form an append-only tree via parent references. -/
inductive SearchNode (S A : Type) : Type where
  | root (state : S)
  | child (parent : SearchNode S A) (action : A) (state : S)

/-- Modelled from the spec: the state a node corresponds to. -/
def SearchNode.state {S A : Type} : SearchNode S A → S
  | .root s => s
  | .child _ _ s => s

/-- Modelled from the spec: accumulated path cost, the number of applied
operators (the root has `g = 0`, a child has `g = parent.g + 1`). -/
def SearchNode.g {S A : Type} : SearchNode S A → Nat
  | .root _ => 0
  | .child p _ _ => p.g + 1

/-- Modelled from the spec: reconstruct the operator sequence by walking
parent references from the node to the root and reversing. -/
def SearchNode.extract_solution {S A : Type} : SearchNode S A → List A
  | .root _ => []
  | .child p a _ => p.extract_solution ++ [a]

/-- Modelled from the spec: construct a root node from an initial state. -/
def make_root_node {S A : Type} (s : S) : SearchNode S A :=
  .root s

/-- Modelled from the spec: construct a child node from a parent node, an
operator and a successor state. -/
def make_child_node {S A : Type} (p : SearchNode S A) (a : A) (s : S) : SearchNode S A :=
  .child p a s

/-- The task collaborator interface used by `astar_search`: an initial
state, a goal test and a successor generator (finite for any given call). -/
structure Task (S A : Type) where
  initial_state : S
  goal_reached : S → Bool
  get_successor_states : S → List (A × S)

/-- A frontier entry `(f, h, node_tiebreaker, node)` as pushed onto the
`open` heap by the source. -/
structure Entry (S A : Type) where
  f : HVal
  h : HVal
  tie : Nat
  node : SearchNode S A

/-- The comparison key of a frontier entry: Python compares the tuples
`(f, h, node_tiebreaker, node)` lexicographically, and the strictly
increasing tiebreaker guarantees the node itself is never compared. -/
def entryKey {S A : Type} (e : Entry S A) : Lex (HVal × Lex (HVal × Nat)) :=
  toLex (e.f, toLex (e.h, e.tie))

/-- Strict lexicographic order on frontier entries. -/
def entryLt {S A : Type} (a b : Entry S A) : Prop :=
  entryKey a < entryKey b

instance {S A : Type} (a b : Entry S A) : Decidable (entryLt a b) := by
  unfold entryLt entryKey
  infer_instance

/-- The heap pop of the source: remove a minimal entry (in the entry order)
from the frontier list.  Comparisons between distinct live entries are never
ties (tiebreakers differ), so this is exactly `heapq.heappop`. -/
def popMin {S A : Type} : List (Entry S A) → Option (Entry S A × List (Entry S A))
  | [] => none
  | e :: es =>
    match popMin es with
    | none => some (e, [])
    | some (m, rest) => if entryLt m e then some (m, e :: rest) else some (e, es)

/-- Source `ordered_node_astar`: the A* ordering policy, `f = node.g + h`. -/
def ordered_node_astar {S A : Type} (node : SearchNode S A) (h : HVal)
    (node_tiebreaker : Nat) : Entry S A :=
  ⟨((node.g : ℚ) : WithTop ℚ) + h, h, node_tiebreaker, node⟩

/-- Source `ordered_node_weighted_astar`: a policy factory; given a weight it
returns the ordering policy `f = node.g + weight * h`. -/
def ordered_node_weighted_astar {S A : Type} (weight : ℚ) :
    SearchNode S A → HVal → Nat → Entry S A :=
  fun node h node_tiebreaker =>
    ⟨((node.g : ℚ) : WithTop ℚ) + ((weight : ℚ) : WithTop ℚ) * h, h, node_tiebreaker, node⟩

/-- Source `ordered_node_greedy_best_first`: the greedy policy, `f = h`. -/
def ordered_node_greedy_best_first {S A : Type} (node : SearchNode S A) (h : HVal)
    (node_tiebreaker : Nat) : Entry S A :=
  ⟨h, h, node_tiebreaker, node⟩

/-- The `state_cost` dictionary of the source, as an association list;
`lookupCost` is `state_cost.get`. -/
def lookupCost {S : Type} [DecidableEq S] : List (S × Nat) → S → Option Nat
  | [], _ => none
  | (k, v) :: rest, s => if s = k then some v else lookupCost rest s

/-- Dictionary update `state_cost[s] = v`: overwrite the binding of `s`, or
append a new binding. -/
def setCost {S : Type} [DecidableEq S] : List (S × Nat) → S → Nat → List (S × Nat)
  | [], s, v => [(s, v)]
  | (k, w) :: rest, s, v =>
    if s = k then (k, v) :: rest else (k, w) :: setCost rest s v

/-- Source condition `new_state not in state_cost or new_g < state_cost[new_state]`. -/
def pushCond {S : Type} [DecidableEq S] (sc : List (S × Nat)) (s : S) (new_g : Nat) : Bool :=
  match lookupCost sc s with
  | none => true
  | some c => decide (new_g < c)

/-- Source condition `state_cost.get(pop_state, float("inf")) < pop_g`
(the staleness check): with the default `∞` a missing key never counts as
stale. -/
def staleCond {S : Type} [DecidableEq S] (sc : List (S × Nat)) (pop_state : S)
    (pop_g : Nat) : Bool :=
  match lookupCost sc pop_state with
  | none => false
  | some c => decide (c < pop_g)

/-- The mutable locals of the `astar_search` loop. -/
structure AState (S A : Type) where
  openList : List (Entry S A)
  state_cost : List (S × Nat)
  node_tiebreaker : Nat
  besth : HVal
  counter : Nat
  expansions : Nat

/-- Source Step 6: the `for op, new_state in task.get_successor_states(...)`
loop, threading the frontier, the cost table and the tiebreaker counter.  A
successor with infinite heuristic is skipped; otherwise, if its state is new
to the cost table or reached more cheaply, the table is updated to `new_g`,
the tiebreaker is incremented and the new entry is pushed. -/
def expandSuccessors {S A : Type} [DecidableEq S] (heuristic : SearchNode S A → HVal)
    (make_open_entry : SearchNode S A → HVal → Nat → Entry S A)
    (pop_node : SearchNode S A) :
    List (A × S) → List (Entry S A) × List (S × Nat) × Nat →
      List (Entry S A) × List (S × Nat) × Nat
  | [], acc => acc
  | (op, new_state) :: rest, (opn, sc, tie) =>
    let new_g := pop_node.g + 1
    let neighbor_node := make_child_node pop_node op new_state
    let h_neighbor := heuristic neighbor_node
    if h_neighbor = ⊤ then
      expandSuccessors heuristic make_open_entry pop_node rest (opn, sc, tie)
    else if pushCond sc new_state new_g then
      expandSuccessors heuristic make_open_entry pop_node rest
        (opn ++ [make_open_entry neighbor_node h_neighbor (tie + 1)],
          setCost sc new_state new_g, tie + 1)
    else
      expandSuccessors heuristic make_open_entry pop_node rest (opn, sc, tie)

/-- Outcome of one iteration of the `while open:` loop. -/
inductive StepResult (S A : Type) where
  | found (plan : List A)
  | exhausted
  | next (st : AState S A)

/-- One iteration of the `while open:` loop of the source: pop the minimal
entry, update `besth`, discard the entry if stale, otherwise count the
expansion, test the goal (returning the extracted solution on success) and
expand the successors. -/
def astarStep {S A : Type} [DecidableEq S] (task : Task S A)
    (heuristic : SearchNode S A → HVal)
    (make_open_entry : SearchNode S A → HVal → Nat → Entry S A)
    (st : AState S A) : StepResult S A :=
  match popMin st.openList with
  | none => .exhausted
  | some (e, rest) =>
    let besth' := if e.h < st.besth then e.h else st.besth
    let pop_state := e.node.state
    let pop_g := e.node.g
    if staleCond st.state_cost pop_state pop_g then
      .next { st with openList := rest, besth := besth' }
    else if task.goal_reached pop_state then
      .found e.node.extract_solution
    else
      let r := expandSuccessors heuristic make_open_entry e.node
        (task.get_successor_states pop_state) (rest, st.state_cost, st.node_tiebreaker)
      .next { openList := r.1, state_cost := r.2.1, node_tiebreaker := r.2.2,
              besth := besth', counter := st.counter + 1,
              expansions := st.expansions + 1 }

/-- Result of a fueled run of the search: the returned plan, the `None` of
the source, or fuel exhaustion (an artifact of the embedding only). -/
inductive SearchResult (A : Type) where
  | solution (plan : List A)
  | noSolution
  | outOfFuel

/-- The `while open:` loop, driven by fuel. -/
def astarLoop {S A : Type} [DecidableEq S] (fuel : Nat) (task : Task S A)
    (heuristic : SearchNode S A → HVal)
    (make_open_entry : SearchNode S A → HVal → Nat → Entry S A)
    (st : AState S A) : SearchResult A :=
  match fuel with
  | 0 => .outOfFuel
  | Nat.succ fuel' =>
    match astarStep task heuristic make_open_entry st with
    | .found p => .solution p
    | .exhausted => .noSolution
    | .next st' => astarLoop fuel' task heuristic make_open_entry st'

/-- The loop locals just before the first iteration: the root node pushed
with the policy entry at tiebreaker 0, the cost table `{initial_state: 0}`,
and `besth = ∞`. -/
def initState {S A : Type} (task : Task S A) (heuristic : SearchNode S A → HVal)
    (make_open_entry : SearchNode S A → HVal → Nat → Entry S A) : AState S A :=
  let root : SearchNode S A := make_root_node task.initial_state
  let state_cost : List (S × Nat) := [(task.initial_state, 0)]
  let node_tiebreaker : Nat := 0
  let init_h := heuristic root
  { openList := [make_open_entry root init_h node_tiebreaker],
    state_cost := state_cost, node_tiebreaker := node_tiebreaker,
    besth := ⊤, counter := 0, expansions := 0 }

/-- Source `astar_search`: the flag `use_relaxed_plan` is overwritten with
`False` before it could ever be read, the root is pushed, and the main loop
runs until a solution is returned or the frontier is exhausted. -/
def astar_search {S A : Type} [DecidableEq S] (fuel : Nat) (task : Task S A)
    (heuristic : SearchNode S A → HVal)
    (make_open_entry : SearchNode S A → HVal → Nat → Entry S A)
    (use_relaxed_plan : Bool) : SearchResult A :=
  let use_relaxed_plan := false
  astarLoop fuel task heuristic make_open_entry (initState task heuristic make_open_entry)

/-- Source `greedy_best_first_search`: `astar_search` with the greedy
ordering policy. -/
def greedy_best_first_search {S A : Type} [DecidableEq S] (fuel : Nat) (task : Task S A)
    (heuristic : SearchNode S A → HVal) (use_relaxed_plan : Bool) : SearchResult A :=
  astar_search fuel task heuristic ordered_node_greedy_best_first use_relaxed_plan

/-- Source `weighted_astar_search` with an explicit weight argument:
`astar_search` with the weighted-A* policy for that weight. -/
def weighted_astar_search {S A : Type} [DecidableEq S] (fuel : Nat) (task : Task S A)
    (heuristic : SearchNode S A → HVal) (weight : ℚ) (use_relaxed_plan : Bool) :
    SearchResult A :=
  astar_search fuel task heuristic (ordered_node_weighted_astar weight) use_relaxed_plan

/-- A call of `weighted_astar_search` that omits the optional `weight`
argument: the source declares the default value `weight=5`. -/
def weighted_astar_search_default {S A : Type} [DecidableEq S] (fuel : Nat)
    (task : Task S A) (heuristic : SearchNode S A → HVal) (use_relaxed_plan : Bool) :
    SearchResult A :=
  weighted_astar_search fuel task heuristic 5 use_relaxed_plan

/-! ## Basic facts about the frontier order and `popMin` -/

theorem entryLt_irrefl {S A : Type} (a : Entry S A) : ¬ entryLt a a :=
  lt_irrefl (entryKey a)

theorem entryLt_asymm {S A : Type} {a b : Entry S A} (h : entryLt a b) : ¬ entryLt b a :=
  lt_asymm h

theorem not_entryLt_trans {S A : Type} {a b c : Entry S A}
    (hab : ¬ entryLt b a) (hbc : ¬ entryLt c b) : ¬ entryLt c a := by
  unfold entryLt at *
  have h1 : entryKey a ≤ entryKey b := not_lt.mp hab
  have h2 : entryKey b ≤ entryKey c := not_lt.mp hbc
  exact not_lt.mpr (h1.trans h2)

theorem popMin_eq_none_iff {S A : Type} (l : List (Entry S A)) :
    popMin l = none ↔ l = [] := by
  cases l with
  | nil => simp [popMin]
  | cons e es =>
    simp only [popMin]
    cases h : popMin es with
    | none => simp
    | some p =>
      obtain ⟨m, rest⟩ := p
      by_cases hlt : entryLt m e <;> simp [hlt]

theorem popMin_perm {S A : Type} {l rest : List (Entry S A)} {m : Entry S A}
    (h : popMin l = some (m, rest)) : l.Perm (m :: rest) := by
  induction l generalizing m rest with
  | nil => simp [popMin] at h
  | cons e es ih =>
    simp only [popMin] at h
    cases hes : popMin es with
    | none =>
      rw [hes] at h
      obtain rfl : es = [] := (popMin_eq_none_iff es).mp hes
      simp only [Option.some.injEq, Prod.mk.injEq] at h
      obtain ⟨rfl, rfl⟩ := h
      exact List.Perm.refl _
    | some p =>
      obtain ⟨m', rest'⟩ := p
      rw [hes] at h
      by_cases hlt : entryLt m' e
      · simp only [hlt, if_true, Option.some.injEq, Prod.mk.injEq] at h
        obtain ⟨rfl, rfl⟩ := h
        exact ((ih hes).cons e).trans (List.Perm.swap m' e rest')
      · simp only [hlt, if_false, Option.some.injEq, Prod.mk.injEq] at h
        obtain ⟨rfl, rfl⟩ := h
        exact List.Perm.refl _

theorem popMin_mem {S A : Type} {l rest : List (Entry S A)} {m : Entry S A}
    (h : popMin l = some (m, rest)) : m ∈ l := by
  have hp := popMin_perm h
  exact hp.mem_iff.mpr (List.mem_cons_self _ _)

theorem popMin_min {S A : Type} {l rest : List (Entry S A)} {m : Entry S A}
    (h : popMin l = some (m, rest)) : ∀ e ∈ l, ¬ entryLt e m := by
  induction l generalizing m rest with
  | nil => simp [popMin] at h
  | cons e es ih =>
    simp only [popMin] at h
    cases hes : popMin es with
    | none =>
      rw [hes] at h
      obtain rfl : es = [] := (popMin_eq_none_iff es).mp hes
      simp only [Option.some.injEq, Prod.mk.injEq] at h
      obtain ⟨rfl, rfl⟩ := h
      intro x hx
      rcases List.mem_singleton.mp hx with rfl
      exact entryLt_irrefl x
    | some p =>
      obtain ⟨m', rest'⟩ := p
      rw [hes] at h
      by_cases hlt : entryLt m' e
      · simp only [hlt, if_true, Option.some.injEq, Prod.mk.injEq] at h
        obtain ⟨rfl, rfl⟩ := h
        intro x hx
        rcases List.mem_cons.mp hx with rfl | hx
        · exact entryLt_asymm hlt
        · exact ih hes x hx
      · simp only [hlt, if_false, Option.some.injEq, Prod.mk.injEq] at h
        obtain ⟨rfl, rfl⟩ := h
        intro x hx
        rcases List.mem_cons.mp hx with rfl | hx
        · exact entryLt_irrefl x
        · exact not_entryLt_trans hlt (ih hes x hx)

theorem popMin_length {S A : Type} {l rest : List (Entry S A)} {m : Entry S A}
    (h : popMin l = some (m, rest)) : l.length = rest.length + 1 := by
  simpa using (popMin_perm h).length_eq

/-- Unfolding of the entry order: entries compare lexicographically by
priority key `f`, then heuristic `h`, then tiebreaker. -/
theorem entryLt_iff {S A : Type} (a b : Entry S A) :
    entryLt a b ↔
      a.f < b.f ∨ (a.f = b.f ∧ (a.h < b.h ∨ (a.h = b.h ∧ a.tie < b.tie))) := by
  unfold entryLt entryKey
  simp [Prod.Lex.lt_iff]

/-! ## Cost table lemmas -/

/-- The cost-table value as an extended natural (`⊤` for a missing key),
mirroring `state_cost.get(s, float("inf"))`. -/
def costOf {S : Type} [DecidableEq S] (sc : List (S × Nat)) (s : S) : ℕ∞ :=
  (lookupCost sc s).elim ⊤ (fun c => (c : ℕ∞))

theorem costOf_eq_coe {S : Type} [DecidableEq S] {sc : List (S × Nat)} {s : S} {c : Nat}
    (h : lookupCost sc s = some c) : costOf sc s = (c : ℕ∞) := by
  simp [costOf, h]

theorem costOf_eq_top {S : Type} [DecidableEq S] {sc : List (S × Nat)} {s : S}
    (h : lookupCost sc s = none) : costOf sc s = ⊤ := by
  simp [costOf, h]

theorem costOf_lt_top {S : Type} [DecidableEq S] {sc : List (S × Nat)} {s : S}
    (h : costOf sc s < ⊤) : ∃ c, lookupCost sc s = some c ∧ costOf sc s = (c : ℕ∞) := by
  cases hl : lookupCost sc s with
  | none => rw [costOf_eq_top hl] at h; exact absurd h (lt_irrefl _)
  | some c => exact ⟨c, rfl, costOf_eq_coe hl⟩

theorem lookupCost_setCost_self {S : Type} [DecidableEq S] (sc : List (S × Nat))
    (s : S) (v : Nat) : lookupCost (setCost sc s v) s = some v := by
  induction sc with
  | nil => simp [setCost, lookupCost]
  | cons kv rest ih =>
    obtain ⟨k, w⟩ := kv
    by_cases hk : s = k
    · subst hk; simp [setCost, lookupCost]
    · simp [setCost, lookupCost, hk, ih]

theorem lookupCost_setCost_ne {S : Type} [DecidableEq S] (sc : List (S × Nat))
    {s s' : S} (v : Nat) (h : s' ≠ s) :
    lookupCost (setCost sc s v) s' = lookupCost sc s' := by
  induction sc with
  | nil => simp [setCost, lookupCost, h]
  | cons kv rest ih =>
    obtain ⟨k, w⟩ := kv
    by_cases hk : s = k
    · subst hk
      simp [setCost, lookupCost, h]
    · by_cases hk' : s' = k
      · subst hk'; simp [setCost, lookupCost, hk]
      · simp [setCost, lookupCost, hk, hk', ih]

theorem costOf_setCost_self {S : Type} [DecidableEq S] (sc : List (S × Nat))
    (s : S) (v : Nat) : costOf (setCost sc s v) s = (v : ℕ∞) :=
  costOf_eq_coe (lookupCost_setCost_self sc s v)

theorem costOf_setCost_ne {S : Type} [DecidableEq S] (sc : List (S × Nat))
    {s s' : S} (v : Nat) (h : s' ≠ s) : costOf (setCost sc s v) s' = costOf sc s' := by
  simp [costOf, lookupCost_setCost_ne sc v h]

theorem pushCond_true_iff {S : Type} [DecidableEq S] (sc : List (S × Nat)) (s : S)
    (g : Nat) : pushCond sc s g = true ↔ (g : ℕ∞) < costOf sc s := by
  unfold pushCond
  cases h : lookupCost sc s with
  | none => simp [costOf_eq_top h]
  | some c => simp [costOf_eq_coe h, Nat.cast_lt]

theorem staleCond_true_iff {S : Type} [DecidableEq S] (sc : List (S × Nat)) (s : S)
    (g : Nat) : staleCond sc s g = true ↔ costOf sc s < (g : ℕ∞) := by
  unfold staleCond
  cases h : lookupCost sc s with
  | none => simp [costOf_eq_top h]
  | some c => simp [costOf_eq_coe h, Nat.cast_lt]

/-! ## Ordering-policy contract -/

/-- The contract of an ordering policy from the spec: the produced frontier
entry carries the given node, its heuristic value and the tiebreaker, the
policy computing only the priority key. -/
def PolicyNode {S A : Type} (mk : SearchNode S A → HVal → Nat → Entry S A) : Prop :=
  ∀ n h t, (mk n h t).node = n ∧ (mk n h t).h = h ∧ (mk n h t).tie = t

theorem policyNode_astar {S A : Type} :
    PolicyNode (ordered_node_astar (S := S) (A := A)) :=
  fun _ _ _ => ⟨rfl, rfl, rfl⟩

theorem policyNode_weighted {S A : Type} (w : ℚ) :
    PolicyNode (ordered_node_weighted_astar (S := S) (A := A) w) :=
  fun _ _ _ => ⟨rfl, rfl, rfl⟩

theorem policyNode_greedy {S A : Type} :
    PolicyNode (ordered_node_greedy_best_first (S := S) (A := A)) :=
  fun _ _ _ => ⟨rfl, rfl, rfl⟩

/-! ## Generic induction over the expansion loop -/

/-- Invariant-preservation principle for the successor loop: any property of
the `(frontier, cost table, tiebreaker)` triple preserved by a single push
step holds after expanding a whole successor list. -/
theorem expandSuccessors_induct {S A : Type} [DecidableEq S]
    (heuristic : SearchNode S A → HVal)
    (make_open_entry : SearchNode S A → HVal → Nat → Entry S A)
    (pop_node : SearchNode S A)
    (P : List (Entry S A) × List (S × Nat) × Nat → Prop) :
    ∀ (L : List (A × S)) (acc : List (Entry S A) × List (S × Nat) × Nat),
      P acc →
      (∀ opn sc tie op ns, (op, ns) ∈ L → P (opn, sc, tie) →
        heuristic (make_child_node pop_node op ns) ≠ ⊤ →
        pushCond sc ns (pop_node.g + 1) = true →
        P (opn ++ [make_open_entry (make_child_node pop_node op ns)
              (heuristic (make_child_node pop_node op ns)) (tie + 1)],
            setCost sc ns (pop_node.g + 1), tie + 1)) →
      P (expandSuccessors heuristic make_open_entry pop_node L acc) := by
  intro L
  induction L with
  | nil => intro acc hP _; exact hP
  | cons p rest ih =>
    intro acc hP hstep
    obtain ⟨op, ns⟩ := p
    obtain ⟨opn, sc, tie⟩ := acc
    show P (expandSuccessors heuristic make_open_entry pop_node ((op, ns) :: rest) (opn, sc, tie))
    rw [expandSuccessors]
    by_cases hinf : heuristic (make_child_node pop_node op ns) = ⊤
    · simp only [hinf, if_true]
      exact ih _ hP (fun o c t a n hm => hstep o c t a n (List.mem_cons_of_mem _ hm))
    · simp only [hinf, if_false]
      by_cases hpush : pushCond sc ns (pop_node.g + 1) = true
      · simp only [hpush, if_true]
        exact ih _ (hstep opn sc tie op ns (List.mem_cons_self _ _) hP hinf hpush)
          (fun o c t a n hm => hstep o c t a n (List.mem_cons_of_mem _ hm))
      · simp only [hpush, if_false]
        exact ih _ hP (fun o c t a n hm => hstep o c t a n (List.mem_cons_of_mem _ hm))

/-! ## Concrete example data used by witness instantiations -/

/-- A linear chain task: states `0 → 1 → ... → 5`, goal `5`, one operator
per edge (labelled by its source state). -/
def exTask : Task Nat Nat where
  initial_state := 0
  goal_reached := fun s => decide (s = 5)
  get_successor_states := fun s => if s < 5 then [(s, s + 1)] else []

/-- The admissible, consistent heuristic `5 - state` for `exTask`. -/
def exHeur : SearchNode Nat Nat → HVal := fun n => (((5 - n.state : Nat) : ℚ) : WithTop ℚ)

/-- An unsolvable task: the goal state `99` is unreachable from `0`. -/
def exBadTask : Task Nat Nat where
  initial_state := 0
  goal_reached := fun s => decide (s = 99)
  get_successor_states := fun s => if s < 3 then [(s, s + 1)] else []

def exEntryA : Entry Nat Nat := ⟨((2 : ℚ) : WithTop ℚ), ((1 : ℚ) : WithTop ℚ), 0, .root 0⟩

def exEntryB : Entry Nat Nat := ⟨((1 : ℚ) : WithTop ℚ), ((0 : ℚ) : WithTop ℚ), 1, .root 1⟩

/-! ## Claim C8: ordering policies and frontier order -/

/-- C8: each ordering policy is a pure function of `(node, h, tiebreaker)`
producing the frontier entry `(priority_key, h, tiebreaker, node)` with
`priority_key = node.g + h` for A*, `node.g + weight * h` for the function
returned by the weighted-A* factory, and `h` for greedy best-first; and
frontier entries are compared lexicographically by priority key, then `h`,
then tiebreaker — in particular the popped entry is minimal in that order. -/
theorem ordering_policy_spec {S A : Type} (node : SearchNode S A) (h : HVal) (tie : Nat)
    (weight : ℚ) (a b m : Entry S A) (l rest : List (Entry S A))
    (hpop : popMin l = some (m, rest)) :
    ordered_node_astar node h tie =
      ⟨((node.g : ℚ) : WithTop ℚ) + h, h, tie, node⟩ ∧
    ordered_node_weighted_astar weight node h tie =
      ⟨((node.g : ℚ) : WithTop ℚ) + ((weight : ℚ) : WithTop ℚ) * h, h, tie, node⟩ ∧
    ordered_node_greedy_best_first node h tie = ⟨h, h, tie, node⟩ ∧
    (entryLt a b ↔ a.f < b.f ∨ (a.f = b.f ∧ (a.h < b.h ∨ (a.h = b.h ∧ a.tie < b.tie)))) ∧
    (∀ e ∈ l, ¬ entryLt e m) :=
  ⟨rfl, rfl, rfl, entryLt_iff a b, popMin_min hpop⟩

/-- Witness for C8 at concrete entries: the minimum of a two-entry frontier. -/
theorem ordering_policy_spec_witness :
    ordered_node_astar (SearchNode.root 0 : SearchNode Nat Nat) ((3 : ℚ) : WithTop ℚ) 7 =
      ⟨(((SearchNode.root 0 : SearchNode Nat Nat).g : ℚ) : WithTop ℚ) + ((3 : ℚ) : WithTop ℚ),
        ((3 : ℚ) : WithTop ℚ), 7, SearchNode.root 0⟩ ∧
    ordered_node_weighted_astar 5 (SearchNode.root 0 : SearchNode Nat Nat)
        ((3 : ℚ) : WithTop ℚ) 7 =
      ⟨(((SearchNode.root 0 : SearchNode Nat Nat).g : ℚ) : WithTop ℚ) +
          ((5 : ℚ) : WithTop ℚ) * ((3 : ℚ) : WithTop ℚ),
        ((3 : ℚ) : WithTop ℚ), 7, SearchNode.root 0⟩ ∧
    ordered_node_greedy_best_first (SearchNode.root 0 : SearchNode Nat Nat)
        ((3 : ℚ) : WithTop ℚ) 7 =
      ⟨((3 : ℚ) : WithTop ℚ), ((3 : ℚ) : WithTop ℚ), 7, SearchNode.root 0⟩ ∧
    (entryLt exEntryA exEntryB ↔ exEntryA.f < exEntryB.f ∨
      (exEntryA.f = exEntryB.f ∧ (exEntryA.h < exEntryB.h ∨
        (exEntryA.h = exEntryB.h ∧ exEntryA.tie < exEntryB.tie)))) ∧
    (∀ e ∈ [exEntryA, exEntryB], ¬ entryLt e exEntryB) :=
  ordering_policy_spec (SearchNode.root 0) ((3 : ℚ) : WithTop ℚ) 7 5
    exEntryA exEntryB exEntryB [exEntryA, exEntryB] [exEntryA] (by rfl)

/-! ## Claim C9: the use_relaxed_plan flag is dead -/

/-- C9: for every task, heuristic and ordering policy the result of
`astar_search` is the same whether `use_relaxed_plan` is true or false (the
flag is overwritten with `False` internally), and likewise for the
`greedy_best_first_search` and `weighted_astar_search` wrappers. -/
theorem relaxed_plan_flag_no_effect {S A : Type} [DecidableEq S] (fuel : Nat)
    (task : Task S A) (heuristic : SearchNode S A → HVal)
    (make_open_entry : SearchNode S A → HVal → Nat → Entry S A) (weight : ℚ)
    (b₁ b₂ : Bool) :
    astar_search fuel task heuristic make_open_entry b₁ =
      astar_search fuel task heuristic make_open_entry b₂ ∧
    greedy_best_first_search fuel task heuristic b₁ =
      greedy_best_first_search fuel task heuristic b₂ ∧
    weighted_astar_search fuel task heuristic weight b₁ =
      weighted_astar_search fuel task heuristic weight b₂ :=
  ⟨rfl, rfl, rfl⟩

/-- Witness for C9 on a concrete task with opposite flag values. -/
theorem relaxed_plan_flag_no_effect_witness :
    astar_search 20 exTask exHeur ordered_node_astar true =
      astar_search 20 exTask exHeur ordered_node_astar false ∧
    greedy_best_first_search 20 exTask exHeur true =
      greedy_best_first_search 20 exTask exHeur false ∧
    weighted_astar_search 20 exTask exHeur 5 true =
      weighted_astar_search 20 exTask exHeur 5 false :=
  relaxed_plan_flag_no_effect 20 exTask exHeur ordered_node_astar 5 true false

/-! ## Claim C10: default weight of weighted_astar_search -/

/-- C10: calling `weighted_astar_search` without an explicit weight uses the
declared default `weight=5`: it coincides with `astar_search` under the
policy `ordered_node_weighted_astar 5`, ordering nodes by `g + 5 * h`. -/
theorem weighted_astar_default_weight {S A : Type} [DecidableEq S] (fuel : Nat)
    (task : Task S A) (heuristic : SearchNode S A → HVal) (b : Bool) :
    weighted_astar_search_default fuel task heuristic b =
      astar_search fuel task heuristic (ordered_node_weighted_astar 5) b ∧
    ordered_node_weighted_astar (S := S) (A := A) 5 =
      fun node h node_tiebreaker =>
        ⟨((node.g : ℚ) : WithTop ℚ) + ((5 : ℚ) : WithTop ℚ) * h, h, node_tiebreaker, node⟩ :=
  ⟨rfl, rfl⟩

/-- Witness for C10 on a concrete task. -/
theorem weighted_astar_default_weight_witness :
    weighted_astar_search_default 20 exTask exHeur false =
      astar_search 20 exTask exHeur (ordered_node_weighted_astar 5) false ∧
    ordered_node_weighted_astar (S := Nat) (A := Nat) 5 =
      fun node h node_tiebreaker =>
        ⟨((node.g : ℚ) : WithTop ℚ) + ((5 : ℚ) : WithTop ℚ) * h, h, node_tiebreaker, node⟩ :=
  weighted_astar_default_weight 20 exTask exHeur false

/-! ## Step relation and runs of the main loop -/

/-- One loop iteration as a relation between loop states. -/
def stepRel {S A : Type} [DecidableEq S] (task : Task S A)
    (heuristic : SearchNode S A → HVal)
    (make_open_entry : SearchNode S A → HVal → Nat → Entry S A)
    (st st' : AState S A) : Prop :=
  astarStep task heuristic make_open_entry st = .next st'

/-- Loop states reachable from a given state by iterating the loop. -/
def Reaches {S A : Type} [DecidableEq S] (task : Task S A)
    (heuristic : SearchNode S A → HVal)
    (make_open_entry : SearchNode S A → HVal → Nat → Entry S A) :
    AState S A → AState S A → Prop :=
  Relation.ReflTransGen (stepRel task heuristic make_open_entry)

/-- Case analysis for a loop iteration that continues: the popped minimal
entry is either discarded as stale (frontier shrinks, nothing else changes
except the best-h tracker), or it passes the staleness and goal checks and
its successors are expanded. -/
theorem astarStep_next_cases {S A : Type} [DecidableEq S] {task : Task S A}
    {heuristic : SearchNode S A → HVal}
    {make_open_entry : SearchNode S A → HVal → Nat → Entry S A}
    {st st' : AState S A}
    (h : astarStep task heuristic make_open_entry st = .next st') :
    ∃ e rest, popMin st.openList = some (e, rest) ∧
      ((staleCond st.state_cost e.node.state e.node.g = true ∧
        st' = { st with openList := rest,
                        besth := if e.h < st.besth then e.h else st.besth }) ∨
       (staleCond st.state_cost e.node.state e.node.g = false ∧
        task.goal_reached e.node.state = false ∧
        st' = { openList := (expandSuccessors heuristic make_open_entry e.node
                  (task.get_successor_states e.node.state)
                  (rest, st.state_cost, st.node_tiebreaker)).1,
                state_cost := (expandSuccessors heuristic make_open_entry e.node
                  (task.get_successor_states e.node.state)
                  (rest, st.state_cost, st.node_tiebreaker)).2.1,
                node_tiebreaker := (expandSuccessors heuristic make_open_entry e.node
                  (task.get_successor_states e.node.state)
                  (rest, st.state_cost, st.node_tiebreaker)).2.2,
                besth := if e.h < st.besth then e.h else st.besth,
                counter := st.counter + 1,
                expansions := st.expansions + 1 })) := by
  unfold astarStep at h
  cases hpop : popMin st.openList with
  | none => rw [hpop] at h; exact absurd h (by simp)
  | some p =>
    obtain ⟨e, rest⟩ := p
    rw [hpop] at h
    refine ⟨e, rest, rfl, ?_⟩
    by_cases hstale : staleCond st.state_cost e.node.state e.node.g = true
    · left
      simp only [hstale, if_true] at h
      cases h
      exact ⟨hstale, rfl⟩
    · rw [Bool.not_eq_true] at hstale
      simp only [hstale, Bool.false_eq_true, if_false] at h
      by_cases hgoal : task.goal_reached e.node.state = true
      · simp [hgoal] at h
      · rw [Bool.not_eq_true] at hgoal
        simp only [hgoal, Bool.false_eq_true, if_false] at h
        cases h
        exact Or.inr ⟨hstale, hgoal, rfl⟩

/-- Case analysis for a loop iteration that returns a plan: the popped
minimal entry passed the staleness check, satisfied the goal test, and its
extracted solution is returned. -/
theorem astarStep_found_cases {S A : Type} [DecidableEq S] {task : Task S A}
    {heuristic : SearchNode S A → HVal}
    {make_open_entry : SearchNode S A → HVal → Nat → Entry S A}
    {st : AState S A} {p : List A}
    (h : astarStep task heuristic make_open_entry st = .found p) :
    ∃ e rest, popMin st.openList = some (e, rest) ∧
      staleCond st.state_cost e.node.state e.node.g = false ∧
      task.goal_reached e.node.state = true ∧
      p = e.node.extract_solution := by
  unfold astarStep at h
  cases hpop : popMin st.openList with
  | none => rw [hpop] at h; exact absurd h (by simp)
  | some q =>
    obtain ⟨e, rest⟩ := q
    rw [hpop] at h
    refine ⟨e, rest, rfl, ?_⟩
    by_cases hstale : staleCond st.state_cost e.node.state e.node.g = true
    · simp [hstale] at h
    · rw [Bool.not_eq_true] at hstale
      simp only [hstale, Bool.false_eq_true, if_false] at h
      by_cases hgoal : task.goal_reached e.node.state = true
      · simp only [hgoal, if_true] at h
        cases h
        exact ⟨hstale, hgoal, rfl⟩
      · simp [hgoal] at h

/-- The loop reports exhaustion exactly when the frontier is empty. -/
theorem astarStep_exhausted_iff {S A : Type} [DecidableEq S] {task : Task S A}
    {heuristic : SearchNode S A → HVal}
    {make_open_entry : SearchNode S A → HVal → Nat → Entry S A}
    {st : AState S A} :
    astarStep task heuristic make_open_entry st = .exhausted ↔ st.openList = [] := by
  constructor
  · intro h
    unfold astarStep at h
    cases hpop : popMin st.openList with
    | none => exact (popMin_eq_none_iff _).mp hpop
    | some q =>
      obtain ⟨e, rest⟩ := q
      rw [hpop] at h
      by_cases hstale : staleCond st.state_cost e.node.state e.node.g = true
      · simp [hstale] at h
      · rw [Bool.not_eq_true] at hstale
        simp only [hstale, Bool.false_eq_true, if_false] at h
        by_cases hgoal : task.goal_reached e.node.state = true
        · simp [hgoal] at h
        · simp [hgoal] at h
  · intro h
    unfold astarStep
    rw [(popMin_eq_none_iff st.openList).mpr h]

/-! ## Claim C5: the expansion step -/

/-- C5: during expansion every successor child gets cost
`new_g = parent.g + 1` (unit operator cost); a child surviving the dead-end
test is pushed if and only if its state is absent from the cost table or
`new_g` is strictly below the table's current value; and on a push the table
entry is set to `new_g` while the tiebreaker counter is incremented before
being used in the new frontier entry. -/
theorem expansion_spec {S A : Type} [DecidableEq S]
    (heuristic : SearchNode S A → HVal)
    (make_open_entry : SearchNode S A → HVal → Nat → Entry S A)
    (Hmk : PolicyNode make_open_entry)
    (pop_node : SearchNode S A) (op : A) (ns : S) (rest : List (A × S))
    (opn : List (Entry S A)) (sc : List (S × Nat)) (tie : Nat)
    (hfin : heuristic (make_child_node pop_node op ns) ≠ ⊤) :
    (make_child_node pop_node op ns).g = pop_node.g + 1 ∧
    (pushCond sc ns (pop_node.g + 1) = true ↔
      lookupCost sc ns = none ∨
        ∃ c, lookupCost sc ns = some c ∧ pop_node.g + 1 < c) ∧
    (pushCond sc ns (pop_node.g + 1) = true →
      expandSuccessors heuristic make_open_entry pop_node ((op, ns) :: rest)
          (opn, sc, tie) =
        expandSuccessors heuristic make_open_entry pop_node rest
          (opn ++ [make_open_entry (make_child_node pop_node op ns)
              (heuristic (make_child_node pop_node op ns)) (tie + 1)],
            setCost sc ns (pop_node.g + 1), tie + 1)) ∧
    (pushCond sc ns (pop_node.g + 1) = false →
      expandSuccessors heuristic make_open_entry pop_node ((op, ns) :: rest)
          (opn, sc, tie) =
        expandSuccessors heuristic make_open_entry pop_node rest (opn, sc, tie)) ∧
    lookupCost (setCost sc ns (pop_node.g + 1)) ns = some (pop_node.g + 1) ∧
    (make_open_entry (make_child_node pop_node op ns)
        (heuristic (make_child_node pop_node op ns)) (tie + 1)).tie = tie + 1 := by
  refine ⟨rfl, ?_, ?_, ?_, lookupCost_setCost_self sc ns _, (Hmk _ _ _).2.2⟩
  · unfold pushCond
    cases h : lookupCost sc ns with
    | none => simp
    | some c => simp [h]
  · intro hpush
    rw [expandSuccessors]
    simp only [hfin, if_false, hpush, if_true]
  · intro hpush
    rw [expandSuccessors]
    simp only [hfin, if_false, hpush, Bool.false_eq_true, if_false]

/-- Witness for C5: expanding the sole successor of the initial chain state. -/
theorem expansion_spec_witness :
    (exHeur (make_child_node (SearchNode.root 0) 0 1) ≠ ⊤) ∧
    ((make_child_node (SearchNode.root 0 : SearchNode Nat Nat) 0 1).g =
      (SearchNode.root 0 : SearchNode Nat Nat).g + 1 ∧
    (pushCond [(0, 0)] 1 ((SearchNode.root 0 : SearchNode Nat Nat).g + 1) = true ↔
      lookupCost [(0, 0)] 1 = none ∨
        ∃ c, lookupCost [(0, 0)] 1 = some c ∧
          (SearchNode.root 0 : SearchNode Nat Nat).g + 1 < c) ∧
    (pushCond [(0, 0)] 1 ((SearchNode.root 0 : SearchNode Nat Nat).g + 1) = true →
      expandSuccessors exHeur ordered_node_astar (SearchNode.root 0) [(0, 1)]
          ([], [(0, 0)], 0) =
        expandSuccessors exHeur ordered_node_astar (SearchNode.root 0) []
          ([] ++ [ordered_node_astar (make_child_node (SearchNode.root 0) 0 1)
              (exHeur (make_child_node (SearchNode.root 0) 0 1)) (0 + 1)],
            setCost [(0, 0)] 1 ((SearchNode.root 0 : SearchNode Nat Nat).g + 1), 0 + 1)) ∧
    (pushCond [(0, 0)] 1 ((SearchNode.root 0 : SearchNode Nat Nat).g + 1) = false →
      expandSuccessors exHeur ordered_node_astar (SearchNode.root 0) [(0, 1)]
          ([], [(0, 0)], 0) =
        expandSuccessors exHeur ordered_node_astar (SearchNode.root 0) []
          ([], [(0, 0)], 0)) ∧
    lookupCost (setCost [(0, 0)] 1 ((SearchNode.root 0 : SearchNode Nat Nat).g + 1)) 1 =
      some ((SearchNode.root 0 : SearchNode Nat Nat).g + 1) ∧
    (ordered_node_astar (make_child_node (SearchNode.root 0 : SearchNode Nat Nat) 0 1)
        (exHeur (make_child_node (SearchNode.root 0) 0 1)) (0 + 1)).tie = 0 + 1) := by
  have hfin : exHeur (make_child_node (SearchNode.root 0) 0 1) ≠ ⊤ := by
    unfold exHeur make_child_node
    simp [SearchNode.state]
  exact ⟨hfin, expansion_spec exHeur ordered_node_astar policyNode_astar
    (SearchNode.root 0) 0 1 [] [] [(0, 0)] 0 hfin⟩

/-! ## Claim C6: dead-end pruning -/

/-- The invariant behind dead-end pruning: a state with everywhere-infinite
heuristic, other than the initial one, never occurs in the cost table or on
the frontier. -/
def DeadEndFree {S A : Type} [DecidableEq S] (s : S) (st : AState S A) : Prop :=
  lookupCost st.state_cost s = none ∧ ∀ e ∈ st.openList, e.node.state ≠ s

theorem deadEndFree_step {S A : Type} [DecidableEq S] {task : Task S A}
    {heuristic : SearchNode S A → HVal}
    {make_open_entry : SearchNode S A → HVal → Nat → Entry S A}
    (Hmk : PolicyNode make_open_entry) {s : S}
    (Hdead : ∀ n : SearchNode S A, n.state = s → heuristic n = ⊤)
    {st st' : AState S A}
    (hstep : stepRel task heuristic make_open_entry st st')
    (hinv : DeadEndFree s st) : DeadEndFree s st' := by
  obtain ⟨e, rest, hpop, hcase⟩ := astarStep_next_cases hstep
  have hrest : ∀ x ∈ rest, x ∈ st.openList := by
    intro x hx
    exact (popMin_perm hpop).mem_iff.mpr (List.mem_cons_of_mem _ hx)
  rcases hcase with ⟨-, rfl⟩ | ⟨-, -, rfl⟩
  · exact ⟨hinv.1, fun x hx => hinv.2 x (hrest x hx)⟩
  · have key : ∀ (acc : List (Entry S A) × List (S × Nat) × Nat),
        (lookupCost acc.2.1 s = none ∧ ∀ x ∈ acc.1, x.node.state ≠ s) →
        (lookupCost (expandSuccessors heuristic make_open_entry e.node
            (task.get_successor_states e.node.state) acc).2.1 s = none ∧
          ∀ x ∈ (expandSuccessors heuristic make_open_entry e.node
            (task.get_successor_states e.node.state) acc).1, x.node.state ≠ s) := by
      intro acc hacc
      refine expandSuccessors_induct heuristic make_open_entry e.node
        (fun t => lookupCost t.2.1 s = none ∧ ∀ x ∈ t.1, x.node.state ≠ s) _ acc hacc ?_
      intro opn sc tie op ns _ hP hinf _
      have hns : ns ≠ s := by
        intro hcontra
        exact hinf (Hdead (make_child_node e.node op ns) (by simp [make_child_node, SearchNode.state, hcontra]))
      constructor
      · rw [lookupCost_setCost_ne sc _ (Ne.symm hns)]
        exact hP.1
      · intro x hx
        rcases List.mem_append.mp hx with hx | hx
        · exact hP.2 x hx
        · rcases List.mem_singleton.mp hx with rfl
          rw [(Hmk _ _ _).1]
          simp [make_child_node, SearchNode.state, hns]
    exact key (rest, st.state_cost, st.node_tiebreaker)
      ⟨hinv.1, fun x hx => hinv.2 x (hrest x hx)⟩

/-- C6: a generated successor with infinite heuristic is discarded locally
(the expansion step ignores it entirely), and consequently any state other
than the initial one whose every search node gets heuristic `+∞` never
appears in the cost table or on the frontier at any reachable point of the
run. -/
theorem dead_end_pruning {S A : Type} [DecidableEq S]
    (task : Task S A) (heuristic : SearchNode S A → HVal)
    (make_open_entry : SearchNode S A → HVal → Nat → Entry S A)
    (Hmk : PolicyNode make_open_entry) (s : S)
    (Hdead : ∀ n : SearchNode S A, n.state = s → heuristic n = ⊤)
    (Hne : s ≠ task.initial_state)
    (st : AState S A)
    (Hreach : Reaches task heuristic make_open_entry
      (initState task heuristic make_open_entry) st) :
    (∀ (pop : SearchNode S A) (op : A) (ns : S) (rest : List (A × S))
        (acc : List (Entry S A) × List (S × Nat) × Nat),
      heuristic (make_child_node pop op ns) = ⊤ →
      expandSuccessors heuristic make_open_entry pop ((op, ns) :: rest) acc =
        expandSuccessors heuristic make_open_entry pop rest acc) ∧
    lookupCost st.state_cost s = none ∧
    ∀ e ∈ st.openList, e.node.state ≠ s := by
  have hlocal : ∀ (pop : SearchNode S A) (op : A) (ns : S) (rest : List (A × S))
      (acc : List (Entry S A) × List (S × Nat) × Nat),
      heuristic (make_child_node pop op ns) = ⊤ →
      expandSuccessors heuristic make_open_entry pop ((op, ns) :: rest) acc =
        expandSuccessors heuristic make_open_entry pop rest acc := by
    intro pop op ns rest acc hinf
    obtain ⟨opn, sc, tie⟩ := acc
    rw [expandSuccessors]
    simp only [hinf, if_true]
  have hinit : DeadEndFree s (initState task heuristic make_open_entry) := by
    constructor
    · simp [initState, lookupCost, Hne]
    · intro e he
      simp only [initState, List.mem_singleton] at he
      subst he
      rw [(Hmk _ _ _).1]
      simp [make_root_node, SearchNode.state]
      exact fun hcontra => Hne hcontra.symm
  have hinv : DeadEndFree s st := by
    induction Hreach with
    | refl => exact hinit
    | tail hr hstep ih => exact deadEndFree_step Hmk Hdead hstep ih
  exact ⟨hlocal, hinv.1, hinv.2⟩

/-- Heuristic for witnesses: `+∞` exactly on state `2`, else `0`. -/
def exDeadHeur : SearchNode Nat Nat → HVal :=
  fun n => if n.state = 2 then ⊤ else ((0 : ℚ) : WithTop ℚ)

/-- Witness for C6: state `2` of the unsolvable chain task is reachable only
through successors whose heuristic is infinite, and it stays out of the cost
table and frontier of the initial loop state. -/
theorem dead_end_pruning_witness :
    ((∀ (pop : SearchNode Nat Nat) (op : Nat) (ns : Nat) (rest : List (Nat × Nat))
        (acc : List (Entry Nat Nat) × List (Nat × Nat) × Nat),
      exDeadHeur (make_child_node pop op ns) = ⊤ →
      expandSuccessors exDeadHeur ordered_node_astar pop ((op, ns) :: rest) acc =
        expandSuccessors exDeadHeur ordered_node_astar pop rest acc) ∧
    lookupCost (initState exBadTask exDeadHeur ordered_node_astar).state_cost 2 = none ∧
    ∀ e ∈ (initState exBadTask exDeadHeur ordered_node_astar).openList,
      e.node.state ≠ 2) :=
  dead_end_pruning exBadTask exDeadHeur ordered_node_astar policyNode_astar 2
    (fun n hn => by simp [exDeadHeur, hn])
    (by decide)
    (initState exBadTask exDeadHeur ordered_node_astar)
    Relation.ReflTransGen.refl

/-! ## Claim C3: the staleness check -/

/-- Invariant: for every frontier entry, the cost table's value for its
state is defined and at most the entry's `g` (the table records the
cheapest push so far). -/
def TableLe {S A : Type} [DecidableEq S] (st : AState S A) : Prop :=
  ∀ e ∈ st.openList, costOf st.state_cost e.node.state ≤ (e.node.g : ℕ∞)

theorem tableLe_init {S A : Type} [DecidableEq S] (task : Task S A)
    (heuristic : SearchNode S A → HVal)
    (make_open_entry : SearchNode S A → HVal → Nat → Entry S A)
    (Hmk : PolicyNode make_open_entry) :
    TableLe (initState task heuristic make_open_entry) := by
  intro e he
  have hopen : (initState task heuristic make_open_entry).openList =
      [make_open_entry (make_root_node task.initial_state)
        (heuristic (make_root_node task.initial_state)) 0] := rfl
  have hsc : (initState task heuristic make_open_entry).state_cost =
      [(task.initial_state, 0)] := rfl
  rw [hopen] at he
  rcases List.mem_singleton.mp he with rfl
  rw [(Hmk _ _ _).1, hsc]
  have hst : (make_root_node (A := A) task.initial_state).state = task.initial_state := rfl
  rw [hst]
  have hlook : lookupCost [(task.initial_state, 0)] task.initial_state = some 0 := by
    simp [lookupCost]
  rw [costOf_eq_coe hlook]
  have hg : (make_root_node (A := A) task.initial_state).g = 0 := rfl
  rw [hg]

theorem tableLe_step {S A : Type} [DecidableEq S] {task : Task S A}
    {heuristic : SearchNode S A → HVal}
    {make_open_entry : SearchNode S A → HVal → Nat → Entry S A}
    (Hmk : PolicyNode make_open_entry) {st st' : AState S A}
    (hstep : stepRel task heuristic make_open_entry st st')
    (hinv : TableLe st) : TableLe st' := by
  obtain ⟨e, rest, hpop, hcase⟩ := astarStep_next_cases hstep
  have hrest : ∀ x ∈ rest, x ∈ st.openList := by
    intro x hx
    exact (popMin_perm hpop).mem_iff.mpr (List.mem_cons_of_mem _ hx)
  rcases hcase with ⟨-, rfl⟩ | ⟨-, -, rfl⟩
  · exact fun x hx => hinv x (hrest x hx)
  · have key : ∀ (acc : List (Entry S A) × List (S × Nat) × Nat),
        (∀ x ∈ acc.1, costOf acc.2.1 x.node.state ≤ (x.node.g : ℕ∞)) →
        ∀ x ∈ (expandSuccessors heuristic make_open_entry e.node
            (task.get_successor_states e.node.state) acc).1,
          costOf (expandSuccessors heuristic make_open_entry e.node
            (task.get_successor_states e.node.state) acc).2.1 x.node.state ≤
            (x.node.g : ℕ∞) := by
      intro acc hacc
      refine expandSuccessors_induct heuristic make_open_entry e.node
        (fun t => ∀ x ∈ t.1, costOf t.2.1 x.node.state ≤ (x.node.g : ℕ∞)) _ acc hacc ?_
      intro opn sc tie op ns _ hP _ hpush
      have hlt : ((e.node.g + 1 : Nat) : ℕ∞) < costOf sc ns :=
        (pushCond_true_iff sc ns (e.node.g + 1)).mp hpush
      intro x hx
      rcases List.mem_append.mp hx with hx | hx
      · by_cases hxs : x.node.state = ns
        · have hx' := hP x hx
          rw [hxs] at hx'
          rw [hxs, costOf_setCost_self]
          exact le_of_lt (lt_of_lt_of_le hlt hx')
        · rw [costOf_setCost_ne sc _ hxs]
          exact hP x hx
      · rcases List.mem_singleton.mp hx with rfl
        rw [(Hmk _ _ _).1]
        have hstate : (make_child_node e.node op ns).state = ns := rfl
        have hg : (make_child_node e.node op ns).g = e.node.g + 1 := rfl
        rw [hstate, hg, costOf_setCost_self]
    exact key (rest, st.state_cost, st.node_tiebreaker)
      (fun x hx => hinv x (hrest x hx))

theorem tableLe_reaches {S A : Type} [DecidableEq S] {task : Task S A}
    {heuristic : SearchNode S A → HVal}
    {make_open_entry : SearchNode S A → HVal → Nat → Entry S A}
    (Hmk : PolicyNode make_open_entry) {st : AState S A}
    (Hreach : Reaches task heuristic make_open_entry
      (initState task heuristic make_open_entry) st) : TableLe st := by
  induction Hreach with
  | refl => exact tableLe_init task heuristic make_open_entry Hmk
  | tail hr hstep ih => exact tableLe_step Hmk hstep ih

/-- C3: a popped entry is discarded without goal check or expansion exactly
when the cost table's value for its state is strictly below its `g`; and an
entry that passes the staleness check (reaching the goal check and the
expansion step) has `g` equal to the table's current value for its state. -/
theorem staleness_check_spec {S A : Type} [DecidableEq S]
    (task : Task S A) (heuristic : SearchNode S A → HVal)
    (make_open_entry : SearchNode S A → HVal → Nat → Entry S A)
    (Hmk : PolicyNode make_open_entry) (st : AState S A)
    (Hreach : Reaches task heuristic make_open_entry
      (initState task heuristic make_open_entry) st)
    (e : Entry S A) (rest : List (Entry S A))
    (hpop : popMin st.openList = some (e, rest)) :
    (staleCond st.state_cost e.node.state e.node.g = true ↔
      ∃ c, lookupCost st.state_cost e.node.state = some c ∧ c < e.node.g) ∧
    (staleCond st.state_cost e.node.state e.node.g = true →
      astarStep task heuristic make_open_entry st =
        .next { st with openList := rest,
                        besth := if e.h < st.besth then e.h else st.besth }) ∧
    (staleCond st.state_cost e.node.state e.node.g = false →
      (task.goal_reached e.node.state = true ∧
        astarStep task heuristic make_open_entry st = .found e.node.extract_solution) ∨
      (task.goal_reached e.node.state = false ∧
        ∃ st', astarStep task heuristic make_open_entry st = .next st' ∧
          st'.expansions = st.expansions + 1)) ∧
    (staleCond st.state_cost e.node.state e.node.g = false →
      lookupCost st.state_cost e.node.state = some e.node.g) := by
  refine ⟨?_, ?_, ?_, ?_⟩
  · unfold staleCond
    cases h : lookupCost st.state_cost e.node.state with
    | none => simp
    | some c => simp [h]
  · intro hstale
    unfold astarStep
    rw [hpop]
    simp only [hstale, if_true]
  · intro hstale
    unfold astarStep
    rw [hpop]
    simp only [hstale, Bool.false_eq_true, if_false]
    by_cases hgoal : task.goal_reached e.node.state = true
    · exact Or.inl ⟨hgoal, by simp only [hgoal, if_true]⟩
    · rw [Bool.not_eq_true] at hgoal
      refine Or.inr ⟨hgoal, ?_⟩
      simp only [hgoal, Bool.false_eq_true, if_false]
      exact ⟨_, rfl, rfl⟩
  · intro hstale
    have hle : costOf st.state_cost e.node.state ≤ (e.node.g : ℕ∞) :=
      tableLe_reaches Hmk Hreach e (popMin_mem hpop)
    have hnotlt : ¬ costOf st.state_cost e.node.state < ((e.node.g : Nat) : ℕ∞) := by
      intro hlt
      rw [← staleCond_true_iff] at hlt
      rw [hstale] at hlt
      exact absurd hlt (by simp)
    have heq : costOf st.state_cost e.node.state = ((e.node.g : Nat) : ℕ∞) :=
      le_antisymm hle (not_lt.mp hnotlt)
    obtain ⟨c, hc, hceq⟩ := costOf_lt_top (lt_of_le_of_lt hle (by simp))
    rw [heq] at hceq
    have : e.node.g = c := by exact_mod_cast hceq
    rw [hc, this]

/-- The root frontier entry of the chain-task example. -/
def exRootEntry : Entry Nat Nat :=
  ordered_node_astar (make_root_node 0) (exHeur (make_root_node 0)) 0

/-- Witness for C3 at the initial state of the chain task: the root entry is
not stale and reaches the goal check with `g` equal to the stored cost. -/
theorem staleness_check_spec_witness :
    (staleCond (initState exTask exHeur ordered_node_astar).state_cost
        exRootEntry.node.state exRootEntry.node.g = true ↔
      ∃ c, lookupCost (initState exTask exHeur ordered_node_astar).state_cost
          exRootEntry.node.state = some c ∧ c < exRootEntry.node.g) ∧
    (staleCond (initState exTask exHeur ordered_node_astar).state_cost
        exRootEntry.node.state exRootEntry.node.g = true →
      astarStep exTask exHeur ordered_node_astar (initState exTask exHeur ordered_node_astar) =
        .next { initState exTask exHeur ordered_node_astar with
                openList := [],
                besth := if exRootEntry.h < (initState exTask exHeur ordered_node_astar).besth
                  then exRootEntry.h
                  else (initState exTask exHeur ordered_node_astar).besth }) ∧
    (staleCond (initState exTask exHeur ordered_node_astar).state_cost
        exRootEntry.node.state exRootEntry.node.g = false →
      (exTask.goal_reached exRootEntry.node.state = true ∧
        astarStep exTask exHeur ordered_node_astar
            (initState exTask exHeur ordered_node_astar) =
          .found exRootEntry.node.extract_solution) ∨
      (exTask.goal_reached exRootEntry.node.state = false ∧
        ∃ st', astarStep exTask exHeur ordered_node_astar
            (initState exTask exHeur ordered_node_astar) = .next st' ∧
          st'.expansions = (initState exTask exHeur ordered_node_astar).expansions + 1)) ∧
    (staleCond (initState exTask exHeur ordered_node_astar).state_cost
        exRootEntry.node.state exRootEntry.node.g = false →
      lookupCost (initState exTask exHeur ordered_node_astar).state_cost
        exRootEntry.node.state = some exRootEntry.node.g) :=
  staleness_check_spec exTask exHeur ordered_node_astar policyNode_astar
    (initState exTask exHeur ordered_node_astar) Relation.ReflTransGen.refl
    exRootEntry [] (by rfl)

/-! ## Claim C7: the no-solution result -/

/-- Iterate the loop step `n` times; `none` once the loop would have
returned (a plan or exhaustion) strictly before the n-th iteration. -/
def iterateSearch {S A : Type} [DecidableEq S] (task : Task S A)
    (heuristic : SearchNode S A → HVal)
    (make_open_entry : SearchNode S A → HVal → Nat → Entry S A) :
    Nat → AState S A → Option (AState S A)
  | 0, st => some st
  | Nat.succ n, st =>
    match astarStep task heuristic make_open_entry st with
    | .next st' => iterateSearch task heuristic make_open_entry n st'
    | _ => none

theorem iterateSearch_succ_next {S A : Type} [DecidableEq S] {task : Task S A}
    {heuristic : SearchNode S A → HVal}
    {make_open_entry : SearchNode S A → HVal → Nat → Entry S A}
    {st st' : AState S A} (h : astarStep task heuristic make_open_entry st = .next st')
    (n : Nat) :
    iterateSearch task heuristic make_open_entry (n + 1) st =
      iterateSearch task heuristic make_open_entry n st' := by
  show (match astarStep task heuristic make_open_entry st with
    | .next s => iterateSearch task heuristic make_open_entry n s
    | _ => none) = _
  rw [h]

theorem iterateSearch_add {S A : Type} [DecidableEq S] (task : Task S A)
    (heuristic : SearchNode S A → HVal)
    (make_open_entry : SearchNode S A → HVal → Nat → Entry S A) (b : Nat) :
    ∀ (a : Nat) (st : AState S A),
      iterateSearch task heuristic make_open_entry (b + a) st =
        match iterateSearch task heuristic make_open_entry a st with
        | some mid => iterateSearch task heuristic make_open_entry b mid
        | none => none := by
  intro a
  induction a with
  | zero => intro st; rfl
  | succ n ih =>
    intro st
    show iterateSearch task heuristic make_open_entry ((b + n) + 1) st = _
    cases hstep : astarStep task heuristic make_open_entry st with
    | next st' =>
      rw [iterateSearch_succ_next hstep, ih st', iterateSearch_succ_next hstep]
    | found p =>
      show (match astarStep task heuristic make_open_entry st with
        | .next s => iterateSearch task heuristic make_open_entry (b + n) s
        | _ => none) = _
      rw [hstep]
      show none = (match (match astarStep task heuristic make_open_entry st with
        | .next s => iterateSearch task heuristic make_open_entry n s
        | _ => none) with
        | some mid => iterateSearch task heuristic make_open_entry b mid
        | none => none)
      rw [hstep]
    | exhausted =>
      show (match astarStep task heuristic make_open_entry st with
        | .next s => iterateSearch task heuristic make_open_entry (b + n) s
        | _ => none) = _
      rw [hstep]
      show none = (match (match astarStep task heuristic make_open_entry st with
        | .next s => iterateSearch task heuristic make_open_entry n s
        | _ => none) with
        | some mid => iterateSearch task heuristic make_open_entry b mid
        | none => none)
      rw [hstep]

theorem astarLoop_noSolution_iff {S A : Type} [DecidableEq S] (task : Task S A)
    (heuristic : SearchNode S A → HVal)
    (make_open_entry : SearchNode S A → HVal → Nat → Entry S A) :
    ∀ (fuel : Nat) (st : AState S A),
      astarLoop fuel task heuristic make_open_entry st = .noSolution ↔
        ∃ n st', n < fuel ∧
          iterateSearch task heuristic make_open_entry n st = some st' ∧
          st'.openList = [] := by
  intro fuel
  induction fuel with
  | zero =>
    intro st
    constructor
    · intro h; exact absurd h (by simp [astarLoop])
    · rintro ⟨n, st', hn, -, -⟩; exact absurd hn (Nat.not_lt_zero n)
  | succ fuel ih =>
    intro st
    cases hstep : astarStep task heuristic make_open_entry st with
    | found p =>
      constructor
      · intro h
        rw [show astarLoop (fuel + 1) task heuristic make_open_entry st =
            (match astarStep task heuristic make_open_entry st with
              | .found p => SearchResult.solution p
              | .exhausted => SearchResult.noSolution
              | .next st' => astarLoop fuel task heuristic make_open_entry st') from rfl,
          hstep] at h
        exact absurd h (by simp)
      · rintro ⟨n, st', hn, hiter, hopen⟩
        cases n with
        | zero =>
          obtain rfl : st = st' := by simpa [iterateSearch] using hiter
          have : astarStep task heuristic make_open_entry st = .exhausted :=
            astarStep_exhausted_iff.mpr hopen
          rw [hstep] at this
          exact absurd this (by simp)
        | succ m =>
          rw [show iterateSearch task heuristic make_open_entry (m + 1) st =
              (match astarStep task heuristic make_open_entry st with
                | .next s => iterateSearch task heuristic make_open_entry m s
                | _ => none) from rfl, hstep] at hiter
          exact absurd hiter (by simp)
    | exhausted =>
      have hopen : st.openList = [] := astarStep_exhausted_iff.mp hstep
      constructor
      · intro _
        exact ⟨0, st, Nat.succ_pos fuel, rfl, hopen⟩
      · intro _
        rw [show astarLoop (fuel + 1) task heuristic make_open_entry st =
            (match astarStep task heuristic make_open_entry st with
              | .found p => SearchResult.solution p
              | .exhausted => SearchResult.noSolution
              | .next st' => astarLoop fuel task heuristic make_open_entry st') from rfl,
          hstep]
    | next st' =>
      have hshape : astarLoop (fuel + 1) task heuristic make_open_entry st =
          astarLoop fuel task heuristic make_open_entry st' := by
        rw [show astarLoop (fuel + 1) task heuristic make_open_entry st =
            (match astarStep task heuristic make_open_entry st with
              | .found p => SearchResult.solution p
              | .exhausted => SearchResult.noSolution
              | .next s => astarLoop fuel task heuristic make_open_entry s) from rfl,
          hstep]
      rw [hshape, ih st']
      constructor
      · rintro ⟨n, st'', hn, hiter, hopen⟩
        exact ⟨n + 1, st'', Nat.succ_lt_succ hn,
          (iterateSearch_succ_next hstep n).trans hiter, hopen⟩
      · rintro ⟨n, st'', hn, hiter, hopen⟩
        cases n with
        | zero =>
          obtain rfl : st = st'' := by simpa [iterateSearch] using hiter
          have : astarStep task heuristic make_open_entry st = .exhausted :=
            astarStep_exhausted_iff.mpr hopen
          rw [hstep] at this
          exact absurd this (by simp)
        | succ m =>
          rw [iterateSearch_succ_next hstep m] at hiter
          exact ⟨m, st'', Nat.lt_of_succ_lt_succ hn, hiter, hopen⟩

/-- C7: `astar_search` returns the no-solution result exactly when the
frontier empties within the available fuel; and on a no-solution run the
goal test never succeeds on any expanded (popped, non-stale) node.  The
no-solution outcome is an ordinary constructor of the total result type,
not an error. -/
theorem no_solution_iff_exhaustion {S A : Type} [DecidableEq S] (fuel : Nat)
    (task : Task S A) (heuristic : SearchNode S A → HVal)
    (make_open_entry : SearchNode S A → HVal → Nat → Entry S A) (b : Bool) :
    (astar_search fuel task heuristic make_open_entry b = .noSolution ↔
      ∃ n st', n < fuel ∧
        iterateSearch task heuristic make_open_entry n
          (initState task heuristic make_open_entry) = some st' ∧
        st'.openList = []) ∧
    (astar_search fuel task heuristic make_open_entry b = .noSolution →
      ∀ m st', iterateSearch task heuristic make_open_entry m
          (initState task heuristic make_open_entry) = some st' →
        ∀ e rest, popMin st'.openList = some (e, rest) →
          staleCond st'.state_cost e.node.state e.node.g = false →
          task.goal_reached e.node.state = false) := by
  have hdef : astar_search fuel task heuristic make_open_entry b =
      astarLoop fuel task heuristic make_open_entry
        (initState task heuristic make_open_entry) := rfl
  constructor
  · rw [hdef]
    exact astarLoop_noSolution_iff task heuristic make_open_entry fuel _
  · intro hns m st' hiter e rest hpop hstale
    by_contra hgoal
    rw [Bool.not_eq_false] at hgoal
    have hfound : astarStep task heuristic make_open_entry st' = .found e.node.extract_solution := by
      unfold astarStep
      rw [hpop]
      simp only [hstale, Bool.false_eq_true, if_false, hgoal, if_true]
    rw [hdef] at hns
    obtain ⟨n, stfin, hn, hitern, hopenfin⟩ :=
      (astarLoop_noSolution_iff task heuristic make_open_entry fuel _).mp hns
    rcases Nat.le_total m n with hmn | hnm
    · obtain ⟨k, rfl⟩ := Nat.le.dest hmn
      rw [Nat.add_comm] at hitern
      rw [iterateSearch_add task heuristic make_open_entry k m _, hiter] at hitern
      dsimp only at hitern
      cases k with
      | zero =>
        obtain rfl : st' = stfin := by simpa [iterateSearch] using hitern
        rw [(popMin_eq_none_iff _).mpr hopenfin] at hpop
        exact absurd hpop (by simp)
      | succ j =>
        rw [show iterateSearch task heuristic make_open_entry (j + 1) st' =
            (match astarStep task heuristic make_open_entry st' with
              | .next s => iterateSearch task heuristic make_open_entry j s
              | _ => none) from rfl, hfound] at hitern
        exact absurd hitern (by simp)
    · obtain ⟨k, rfl⟩ := Nat.le.dest hnm
      rw [Nat.add_comm] at hiter
      rw [iterateSearch_add task heuristic make_open_entry k n _, hitern] at hiter
      dsimp only at hiter
      cases k with
      | zero =>
        obtain rfl : stfin = st' := by simpa [iterateSearch] using hiter
        rw [(popMin_eq_none_iff _).mpr hopenfin] at hpop
        exact absurd hpop (by simp)
      | succ j =>
        have hex : astarStep task heuristic make_open_entry stfin = .exhausted :=
          astarStep_exhausted_iff.mpr hopenfin
        rw [show iterateSearch task heuristic make_open_entry (j + 1) stfin =
            (match astarStep task heuristic make_open_entry stfin with
              | .next s => iterateSearch task heuristic make_open_entry j s
              | _ => none) from rfl, hex] at hiter
        exact absurd hiter (by simp)

/-- Witness for C7 on the concrete unsolvable task. -/
theorem no_solution_iff_exhaustion_witness :
    (astar_search 20 exBadTask exHeur ordered_node_astar false = .noSolution ↔
      ∃ n st', n < 20 ∧
        iterateSearch exBadTask exHeur ordered_node_astar n
          (initState exBadTask exHeur ordered_node_astar) = some st' ∧
        st'.openList = []) ∧
    (astar_search 20 exBadTask exHeur ordered_node_astar false = .noSolution →
      ∀ m st', iterateSearch exBadTask exHeur ordered_node_astar m
          (initState exBadTask exHeur ordered_node_astar) = some st' →
        ∀ e rest, popMin st'.openList = some (e, rest) →
          staleCond st'.state_cost e.node.state e.node.g = false →
          exBadTask.goal_reached e.node.state = false) :=
  no_solution_iff_exhaustion 20 exBadTask exHeur ordered_node_astar false

/-! ## Claim C4: the cost table records the minimum pushed g -/

/-- The entries pushed onto the frontier during one loop iteration (empty
for a stale pop; the appended tail of the expansion result otherwise). -/
def pushedInStep {S A : Type} [DecidableEq S] (task : Task S A)
    (heuristic : SearchNode S A → HVal)
    (make_open_entry : SearchNode S A → HVal → Nat → Entry S A)
    (st : AState S A) : List (Entry S A) :=
  match popMin st.openList with
  | none => []
  | some (e, rest) =>
    if staleCond st.state_cost e.node.state e.node.g then []
    else if task.goal_reached e.node.state then []
    else
      ((expandSuccessors heuristic make_open_entry e.node
        (task.get_successor_states e.node.state)
        (rest, st.state_cost, st.node_tiebreaker)).1).drop rest.length

theorem pushedInStep_stale {S A : Type} [DecidableEq S] {task : Task S A}
    {heuristic : SearchNode S A → HVal}
    {make_open_entry : SearchNode S A → HVal → Nat → Entry S A}
    {st : AState S A} {e : Entry S A} {rest : List (Entry S A)}
    (hpop : popMin st.openList = some (e, rest))
    (hstale : staleCond st.state_cost e.node.state e.node.g = true) :
    pushedInStep task heuristic make_open_entry st = [] := by
  unfold pushedInStep
  rw [hpop]
  simp [hstale]

theorem pushedInStep_expand {S A : Type} [DecidableEq S] {task : Task S A}
    {heuristic : SearchNode S A → HVal}
    {make_open_entry : SearchNode S A → HVal → Nat → Entry S A}
    {st : AState S A} {e : Entry S A} {rest : List (Entry S A)}
    (hpop : popMin st.openList = some (e, rest))
    (hstale : staleCond st.state_cost e.node.state e.node.g = false)
    (hgoal : task.goal_reached e.node.state = false) :
    pushedInStep task heuristic make_open_entry st =
      ((expandSuccessors heuristic make_open_entry e.node
        (task.get_successor_states e.node.state)
        (rest, st.state_cost, st.node_tiebreaker)).1).drop rest.length := by
  unfold pushedInStep
  rw [hpop]
  simp [hstale, hgoal]

/-- A run of the loop together with the list of entries it pushed. -/
inductive RunPush {S A : Type} [DecidableEq S] (task : Task S A)
    (heuristic : SearchNode S A → HVal)
    (make_open_entry : SearchNode S A → HVal → Nat → Entry S A) :
    AState S A → List (Entry S A) → AState S A → Prop where
  | refl (st : AState S A) : RunPush task heuristic make_open_entry st [] st
  | step {st st' st'' : AState S A} {l : List (Entry S A)}
      (h : astarStep task heuristic make_open_entry st = .next st')
      (hr : RunPush task heuristic make_open_entry st' l st'') :
      RunPush task heuristic make_open_entry st
        (pushedInStep task heuristic make_open_entry st ++ l) st''

/-- The minimum `g` among the entries of a list whose node has a given
state (`⊤` when there is none). -/
def gInf {S A : Type} [DecidableEq S] (l : List (Entry S A)) (s : S) : ℕ∞ :=
  l.foldr (fun e acc => if e.node.state = s then min ((e.node.g : ℕ∞)) acc else acc) ⊤

theorem gInf_nil {S A : Type} [DecidableEq S] (s : S) :
    gInf ([] : List (Entry S A)) s = ⊤ := rfl

theorem gInf_cons {S A : Type} [DecidableEq S] (e : Entry S A) (l : List (Entry S A))
    (s : S) :
    gInf (e :: l) s =
      if e.node.state = s then min ((e.node.g : ℕ∞)) (gInf l s) else gInf l s := rfl

theorem gInf_append {S A : Type} [DecidableEq S] (l₁ l₂ : List (Entry S A)) (s : S) :
    gInf (l₁ ++ l₂) s = min (gInf l₁ s) (gInf l₂ s) := by
  induction l₁ with
  | nil => rw [List.nil_append, gInf_nil, min_comm, min_eq_left le_top]
  | cons e l₁ ih =>
    rw [List.cons_append, gInf_cons, gInf_cons, ih]
    by_cases hs : e.node.state = s
    · rw [if_pos hs, if_pos hs, min_assoc]
    · rw [if_neg hs, if_neg hs]

theorem gInf_singleton_eq {S A : Type} [DecidableEq S] (e : Entry S A) (s : S)
    (h : e.node.state = s) : gInf [e] s = (e.node.g : ℕ∞) := by
  rw [gInf_cons, if_pos h, gInf_nil, min_eq_left le_top]

theorem gInf_singleton_ne {S A : Type} [DecidableEq S] (e : Entry S A) (s : S)
    (h : e.node.state ≠ s) : gInf [e] s = ⊤ := by
  rw [gInf_cons, if_neg h, gInf_nil]

theorem gInf_le {S A : Type} [DecidableEq S] {l : List (Entry S A)} {s : S}
    {e : Entry S A} (he : e ∈ l) (hs : e.node.state = s) :
    gInf l s ≤ (e.node.g : ℕ∞) := by
  induction l with
  | nil => exact absurd he (List.not_mem_nil e)
  | cons x l ih =>
    rw [gInf_cons]
    rcases List.mem_cons.mp he with rfl | he'
    · rw [if_pos hs]
      exact min_le_left _ _
    · by_cases hx : x.node.state = s
      · rw [if_pos hx]
        exact le_trans (min_le_right _ _) (ih he')
      · rw [if_neg hx]
        exact ih he'

theorem gInf_attained {S A : Type} [DecidableEq S] {l : List (Entry S A)} {s : S}
    (h : gInf l s ≠ ⊤) :
    ∃ e ∈ l, e.node.state = s ∧ (e.node.g : ℕ∞) = gInf l s := by
  induction l with
  | nil => exact absurd rfl h
  | cons x l ih =>
    rw [gInf_cons] at h ⊢
    by_cases hx : x.node.state = s
    · rw [if_pos hx] at h ⊢
      rcases min_cases ((x.node.g : ℕ∞)) (gInf l s) with ⟨hmin, -⟩ | ⟨hmin, hle⟩
      · exact ⟨x, List.mem_cons_self _ _, hx, hmin.symm⟩
      · rw [hmin] at h
        obtain ⟨e, he, hes, heg⟩ := ih h
        exact ⟨e, List.mem_cons_of_mem _ he, hes, heg.trans hmin.symm⟩
    · rw [if_neg hx] at h ⊢
      obtain ⟨e, he, hes, heg⟩ := ih h
      exact ⟨e, List.mem_cons_of_mem _ he, hes, heg⟩

/-- Per-step cost-table monotonicity: an iteration never increases the
stored value of any state. -/
theorem costOf_step_mono {S A : Type} [DecidableEq S] {task : Task S A}
    {heuristic : SearchNode S A → HVal}
    {make_open_entry : SearchNode S A → HVal → Nat → Entry S A}
    {st st' : AState S A}
    (hstep : astarStep task heuristic make_open_entry st = .next st') (s : S) :
    costOf st'.state_cost s ≤ costOf st.state_cost s := by
  obtain ⟨e, rest, hpop, hcase⟩ := astarStep_next_cases hstep
  rcases hcase with ⟨-, rfl⟩ | ⟨-, -, rfl⟩
  · exact le_refl _
  · have key : ∀ (acc : List (Entry S A) × List (S × Nat) × Nat),
        (∀ u, costOf acc.2.1 u ≤ costOf st.state_cost u) →
        ∀ u, costOf (expandSuccessors heuristic make_open_entry e.node
            (task.get_successor_states e.node.state) acc).2.1 u ≤
          costOf st.state_cost u := by
      intro acc hacc
      refine expandSuccessors_induct heuristic make_open_entry e.node
        (fun t => ∀ u, costOf t.2.1 u ≤ costOf st.state_cost u) _ acc hacc ?_
      intro opn sc tie op ns _ hP _ hpush
      intro u
      by_cases hu : u = ns
      · subst hu
        rw [costOf_setCost_self]
        exact le_trans (le_of_lt ((pushCond_true_iff sc u _).mp hpush)) (hP u)
      · rw [costOf_setCost_ne sc _ hu]
        exact hP u
    exact key (rest, st.state_cost, st.node_tiebreaker) (fun u => le_refl _) s

/-- The expansion loop turns the frontier into `rest ++ new` and updates the
cost table to the pointwise minimum of its previous value and the `g` of the
newly pushed entries. -/
theorem expand_minPush {S A : Type} [DecidableEq S]
    (heuristic : SearchNode S A → HVal)
    (make_open_entry : SearchNode S A → HVal → Nat → Entry S A)
    (Hmk : PolicyNode make_open_entry)
    (pop_node : SearchNode S A) (L : List (A × S))
    (rest : List (Entry S A)) (sc₀ : List (S × Nat)) (tie₀ : Nat) :
    ∃ new, (expandSuccessors heuristic make_open_entry pop_node L (rest, sc₀, tie₀)).1 =
        rest ++ new ∧
      ∀ s, costOf (expandSuccessors heuristic make_open_entry pop_node L
          (rest, sc₀, tie₀)).2.1 s = min (costOf sc₀ s) (gInf new s) := by
  have key := expandSuccessors_induct heuristic make_open_entry pop_node
    (fun t => ∃ new, t.1 = rest ++ new ∧
      ∀ s, costOf t.2.1 s = min (costOf sc₀ s) (gInf new s)) L (rest, sc₀, tie₀)
    ⟨[], by simp, fun s => by rw [gInf_nil]; exact (min_eq_left le_top).symm⟩ ?_
  · exact key
  · rintro opn sc tie op ns _ ⟨new, hopn, hmin⟩ _ hpush
    simp only at hopn hmin
    refine ⟨new ++ [make_open_entry (make_child_node pop_node op ns)
      (heuristic (make_child_node pop_node op ns)) (tie + 1)],
      by rw [hopn, List.append_assoc], ?_⟩
    intro s
    have hnode := (Hmk (make_child_node pop_node op ns)
      (heuristic (make_child_node pop_node op ns)) (tie + 1)).1
    have hstate : (make_open_entry (make_child_node pop_node op ns)
        (heuristic (make_child_node pop_node op ns)) (tie + 1)).node.state = ns := by
      rw [hnode]; rfl
    have hgval : (make_open_entry (make_child_node pop_node op ns)
        (heuristic (make_child_node pop_node op ns)) (tie + 1)).node.g =
        pop_node.g + 1 := by
      rw [hnode]; rfl
    rw [gInf_append]
    by_cases hs : s = ns
    · subst hs
      rw [costOf_setCost_self, gInf_singleton_eq _ _ hstate, hgval]
      have hlt : ((pop_node.g + 1 : Nat) : ℕ∞) < costOf sc s :=
        (pushCond_true_iff sc s _).mp hpush
      rw [hmin s] at hlt
      have h1 : ((pop_node.g + 1 : Nat) : ℕ∞) < costOf sc₀ s :=
        lt_of_lt_of_le hlt (min_le_left _ _)
      have h2 : ((pop_node.g + 1 : Nat) : ℕ∞) < gInf new s :=
        lt_of_lt_of_le hlt (min_le_right _ _)
      rw [min_eq_right (le_of_lt h2), min_eq_right (le_of_lt h1)]
    · rw [costOf_setCost_ne sc _ hs, hmin s]
      rw [gInf_singleton_ne _ _ (by rw [hstate]; exact fun hc => hs hc.symm)]
      rw [min_eq_left (le_top (a := gInf new s))]

/-- Along any run, the stored cost of every state never increases. -/
theorem costOf_run_mono {S A : Type} [DecidableEq S] {task : Task S A}
    {heuristic : SearchNode S A → HVal}
    {make_open_entry : SearchNode S A → HVal → Nat → Entry S A}
    {st st'' : AState S A} {l : List (Entry S A)}
    (hrun : RunPush task heuristic make_open_entry st l st'') :
    ∀ s, costOf st''.state_cost s ≤ costOf st.state_cost s := by
  induction hrun with
  | refl st => exact fun s => le_refl _
  | step h hr ih => exact fun s => le_trans (ih s) (costOf_step_mono h s)

/-- Cost table vs pushed entries, along a run: if the table is the pointwise
`gInf` of the pushed-so-far list `E`, it stays so as the run extends `E`. -/
theorem costIsMinPushed_run {S A : Type} [DecidableEq S] {task : Task S A}
    {heuristic : SearchNode S A → HVal}
    {make_open_entry : SearchNode S A → HVal → Nat → Entry S A}
    (Hmk : PolicyNode make_open_entry) {st st'' : AState S A} {l : List (Entry S A)}
    (hrun : RunPush task heuristic make_open_entry st l st'') :
    ∀ E, (∀ s, costOf st.state_cost s = gInf E s) →
      ∀ s, costOf st''.state_cost s = gInf (E ++ l) s := by
  induction hrun with
  | refl st => intro E hE s; rw [List.append_nil]; exact hE s
  | step h hr ih =>
    rename_i st st' st'' l
    intro E hE s
    obtain ⟨e, rest, hpop, hcase⟩ := astarStep_next_cases h
    have hpushed : ∀ s, costOf st'.state_cost s =
        gInf (E ++ pushedInStep task heuristic make_open_entry st) s := by
      intro u
      rcases hcase with ⟨hstale, hst'⟩ | ⟨hstale, hgoal, hst'⟩
      · rw [pushedInStep_stale hpop hstale, List.append_nil, hst']
        exact hE u
      · rw [pushedInStep_expand hpop hstale hgoal]
        obtain ⟨new, hopn, hmin⟩ := expand_minPush heuristic make_open_entry Hmk
          e.node (task.get_successor_states e.node.state) rest st.state_cost
          st.node_tiebreaker
        rw [hopn, List.drop_left]
        rw [hst']
        show costOf (expandSuccessors heuristic make_open_entry e.node
          (task.get_successor_states e.node.state)
          (rest, st.state_cost, st.node_tiebreaker)).2.1 u = _
        rw [hmin u, hE u, gInf_append]
    have := ih (E ++ pushedInStep task heuristic make_open_entry st) hpushed s
    rwa [List.append_assoc] at this

theorem costOf_init {S A : Type} [DecidableEq S] (task : Task S A)
    (heuristic : SearchNode S A → HVal)
    (make_open_entry : SearchNode S A → HVal → Nat → Entry S A)
    (Hmk : PolicyNode make_open_entry) (s : S) :
    costOf (initState task heuristic make_open_entry).state_cost s =
      gInf (initState task heuristic make_open_entry).openList s := by
  have hsc : (initState task heuristic make_open_entry).state_cost =
      [(task.initial_state, 0)] := rfl
  have hopen : (initState task heuristic make_open_entry).openList =
      [make_open_entry (make_root_node task.initial_state)
        (heuristic (make_root_node task.initial_state)) 0] := rfl
  rw [hsc, hopen]
  have hnode := (Hmk (make_root_node task.initial_state)
    (heuristic (make_root_node task.initial_state)) 0).1
  by_cases hs : s = task.initial_state
  · subst hs
    rw [gInf_singleton_eq _ _ (by rw [hnode]; rfl)]
    have : lookupCost [(task.initial_state, 0)] task.initial_state = some 0 := by
      simp [lookupCost]
    rw [costOf_eq_coe this, hnode]
    rfl
  · rw [gInf_singleton_ne _ _ (by rw [hnode]; exact fun hc => hs hc.symm)]
    exact costOf_eq_top (by simp [lookupCost, hs])

/-- C4: at every reachable point of a run, the cost table stores, for every
state, the minimum `g` over all entries pushed for that state so far (the
root entry, pushed with `g = 0`, included); when a key is present the stored
value is attained by a pushed entry and below every pushed `g` for that
state; and stored values never increase as the run continues. -/
theorem cost_table_min_pushed {S A : Type} [DecidableEq S] (task : Task S A)
    (heuristic : SearchNode S A → HVal)
    (make_open_entry : SearchNode S A → HVal → Nat → Entry S A)
    (Hmk : PolicyNode make_open_entry) (P : List (Entry S A)) (st : AState S A)
    (hrun : RunPush task heuristic make_open_entry
      (initState task heuristic make_open_entry) P st) :
    (∀ s, costOf st.state_cost s =
      gInf ((initState task heuristic make_open_entry).openList ++ P) s) ∧
    (∀ s c, lookupCost st.state_cost s = some c →
      (∃ e ∈ (initState task heuristic make_open_entry).openList ++ P,
        e.node.state = s ∧ e.node.g = c) ∧
      (∀ e ∈ (initState task heuristic make_open_entry).openList ++ P,
        e.node.state = s → c ≤ e.node.g)) ∧
    (∀ l st'', RunPush task heuristic make_open_entry st l st'' →
      ∀ s, costOf st''.state_cost s ≤ costOf st.state_cost s) := by
  have hmain : ∀ s, costOf st.state_cost s =
      gInf ((initState task heuristic make_open_entry).openList ++ P) s :=
    costIsMinPushed_run Hmk hrun _ (costOf_init task heuristic make_open_entry Hmk)
  refine ⟨hmain, ?_, ?_⟩
  · intro s c hc
    have hval := hmain s
    rw [costOf_eq_coe hc] at hval
    constructor
    · have hne : gInf ((initState task heuristic make_open_entry).openList ++ P) s ≠ ⊤ := by
        rw [← hval]
        simp
      obtain ⟨e, he, hes, heg⟩ := gInf_attained hne
      rw [← hval] at heg
      exact ⟨e, he, hes, by exact_mod_cast heg⟩
    · intro e he hes
      have hle : gInf ((initState task heuristic make_open_entry).openList ++ P) s ≤
          (e.node.g : ℕ∞) := gInf_le he hes
      rw [← hval] at hle
      exact_mod_cast hle
  · intro l st'' hrun' s
    exact costOf_run_mono hrun' s

/-- Witness for C4 at the start of the chain-task run (the root counts as
pushed with `g = 0`). -/
theorem cost_table_min_pushed_witness :
    (∀ s, costOf (initState exTask exHeur ordered_node_astar).state_cost s =
      gInf ((initState exTask exHeur ordered_node_astar).openList ++ []) s) ∧
    (∀ s c, lookupCost (initState exTask exHeur ordered_node_astar).state_cost s = some c →
      (∃ e ∈ (initState exTask exHeur ordered_node_astar).openList ++ [],
        e.node.state = s ∧ e.node.g = c) ∧
      (∀ e ∈ (initState exTask exHeur ordered_node_astar).openList ++ [],
        e.node.state = s → c ≤ e.node.g)) ∧
    (∀ l st'', RunPush exTask exHeur ordered_node_astar
        (initState exTask exHeur ordered_node_astar) l st'' →
      ∀ s, costOf st''.state_cost s ≤
        costOf (initState exTask exHeur ordered_node_astar).state_cost s) :=
  cost_table_min_pushed exTask exHeur ordered_node_astar policyNode_astar []
    (initState exTask exHeur ordered_node_astar) (RunPush.refl _)

/-! ## Claim C2: termination on finite reachable state spaces -/

theorem lookupCost_eq_none_iff {S : Type} [DecidableEq S] (sc : List (S × Nat)) (s : S) :
    lookupCost sc s = none ↔ s ∉ sc.map Prod.fst := by
  induction sc with
  | nil => simp [lookupCost]
  | cons kv rest ih =>
    obtain ⟨k, v⟩ := kv
    by_cases hk : s = k
    · subst hk; simp [lookupCost]
    · simp [lookupCost, hk, ih]

theorem lookupCost_some_mem {S : Type} [DecidableEq S] {sc : List (S × Nat)} {s : S}
    {c : Nat} (h : lookupCost sc s = some c) : (s, c) ∈ sc := by
  induction sc with
  | nil => simp [lookupCost] at h
  | cons kv rest ih =>
    obtain ⟨k, v⟩ := kv
    by_cases hk : s = k
    · subst hk
      simp [lookupCost] at h
      subst h
      exact List.mem_cons_self _ _
    · simp only [lookupCost, if_neg hk] at h
      exact List.mem_cons_of_mem _ (ih h)

theorem setCost_mem {S : Type} [DecidableEq S] {sc : List (S × Nat)} {s : S} {v : Nat}
    {kv : S × Nat} (h : kv ∈ setCost sc s v) : kv = (s, v) ∨ kv ∈ sc := by
  induction sc with
  | nil => simpa [setCost] using h
  | cons kw rest ih =>
    obtain ⟨k, w⟩ := kw
    by_cases hk : s = k
    · subst hk
      simp only [setCost, if_pos rfl] at h
      rcases List.mem_cons.mp h with rfl | h'
      · exact Or.inl rfl
      · exact Or.inr (List.mem_cons_of_mem _ h')
    · simp only [setCost, if_neg hk] at h
      rcases List.mem_cons.mp h with rfl | h'
      · exact Or.inr (List.mem_cons_self _ _)
      · rcases ih h' with h'' | h''
        · exact Or.inl h''
        · exact Or.inr (List.mem_cons_of_mem _ h'')

theorem setCost_map_fst_some {S : Type} [DecidableEq S] {sc : List (S × Nat)} {s : S}
    {c : Nat} (h : lookupCost sc s = some c) (v : Nat) :
    (setCost sc s v).map Prod.fst = sc.map Prod.fst := by
  induction sc with
  | nil => simp [lookupCost] at h
  | cons kw rest ih =>
    obtain ⟨k, w⟩ := kw
    by_cases hk : s = k
    · subst hk; simp [setCost]
    · simp only [lookupCost, if_neg hk] at h
      simp [setCost, hk, ih h]

theorem setCost_map_fst_none {S : Type} [DecidableEq S] {sc : List (S × Nat)} {s : S}
    (h : lookupCost sc s = none) (v : Nat) :
    (setCost sc s v).map Prod.fst = sc.map Prod.fst ++ [s] := by
  induction sc with
  | nil => simp [setCost]
  | cons kw rest ih =>
    obtain ⟨k, w⟩ := kw
    by_cases hk : s = k
    · subst hk; simp [lookupCost] at h
    · simp only [lookupCost, if_neg hk] at h
      simp [setCost, hk, ih h]

/-- The loop-state invariant for termination over a finite closed set `R` of
states: frontier states and table keys live in `R`, table keys are distinct,
and every stored value is below the number of keys. -/
structure TermInv {S A : Type} [DecidableEq S] (R : Finset S) (st : AState S A) : Prop where
  openR : ∀ e ∈ st.openList, e.node.state ∈ R
  keysR : ∀ kv ∈ st.state_cost, kv.1 ∈ R
  keysNodup : (st.state_cost.map Prod.fst).Nodup
  valBound : ∀ kv ∈ st.state_cost, kv.2 < st.state_cost.length
  tle : TableLe st

theorem keysLength_lt_card {S : Type} [DecidableEq S] {R : Finset S}
    {sc : List (S × Nat)} (hnodup : (sc.map Prod.fst).Nodup)
    (hkeysR : ∀ kv ∈ sc, kv.1 ∈ R) {s : S} (hs : s ∈ R)
    (hmiss : lookupCost sc s = none) : sc.length < R.card := by
  have h1 : (sc.map Prod.fst).toFinset.card = (sc.map Prod.fst).length :=
    List.toFinset_card_of_nodup hnodup
  have h2 : insert s (sc.map Prod.fst).toFinset ⊆ R := by
    intro x hx
    rcases Finset.mem_insert.mp hx with rfl | hx
    · exact hs
    · rw [List.mem_toFinset] at hx
      obtain ⟨kv, hkv, rfl⟩ := List.mem_map.mp hx
      exact hkeysR kv hkv
  have hnot : s ∉ (sc.map Prod.fst).toFinset := by
    rw [List.mem_toFinset]
    exact (lookupCost_eq_none_iff _ _).mp hmiss
  have := Finset.card_le_card h2
  rw [Finset.card_insert_of_not_mem hnot, h1] at this
  calc sc.length = (sc.map Prod.fst).length := (List.length_map _ _).symm
    _ < (sc.map Prod.fst).length + 1 := Nat.lt_succ_self _
    _ ≤ R.card := this

theorem length_setCost_some {S : Type} [DecidableEq S] {sc : List (S × Nat)} {s : S}
    {c : Nat} (h : lookupCost sc s = some c) (v : Nat) :
    (setCost sc s v).length = sc.length := by
  have := setCost_map_fst_some h v
  calc (setCost sc s v).length = ((setCost sc s v).map Prod.fst).length :=
        (List.length_map _ _).symm
    _ = (sc.map Prod.fst).length := by rw [this]
    _ = sc.length := List.length_map _ _

theorem length_setCost_none {S : Type} [DecidableEq S] {sc : List (S × Nat)} {s : S}
    (h : lookupCost sc s = none) (v : Nat) :
    (setCost sc s v).length = sc.length + 1 := by
  have := setCost_map_fst_none h v
  calc (setCost sc s v).length = ((setCost sc s v).map Prod.fst).length :=
        (List.length_map _ _).symm
    _ = (sc.map Prod.fst ++ [s]).length := by rw [this]
    _ = sc.length + 1 := by simp

/-- The termination measure: twice the total default-padded table cost over
`R`, plus the frontier length. -/
def sumCost {S : Type} [DecidableEq S] (R : Finset S) (sc : List (S × Nat)) : Nat :=
  R.sum (fun s => (lookupCost sc s).getD R.card)

def measureC2 {S A : Type} [DecidableEq S] (R : Finset S) (st : AState S A) : Nat :=
  2 * sumCost R st.state_cost + st.openList.length

theorem lookupCost_setCost_getD {S : Type} [DecidableEq S] (sc : List (S × Nat))
    (ns : S) (v : Nat) (s : S) (d : Nat) :
    (lookupCost (setCost sc ns v) s).getD d = if s = ns then v else (lookupCost sc s).getD d := by
  by_cases hs : s = ns
  · subst hs
    rw [lookupCost_setCost_self, if_pos rfl]
    rfl
  · rw [lookupCost_setCost_ne sc _ hs, if_neg hs]

theorem sumCost_setCost_lt {S : Type} [DecidableEq S] {R : Finset S}
    {sc : List (S × Nat)} {ns : S} {v : Nat} (hns : ns ∈ R)
    (hlt : v < (lookupCost sc ns).getD R.card) :
    sumCost R (setCost sc ns v) < sumCost R sc := by
  unfold sumCost
  refine Finset.sum_lt_sum (fun i _ => ?_) ⟨ns, hns, ?_⟩
  · rw [lookupCost_setCost_getD]
    by_cases hi : i = ns
    · rw [if_pos hi]
      subst hi
      exact le_of_lt hlt
    · rw [if_neg hi]
  · rw [lookupCost_setCost_getD, if_pos rfl]
    exact hlt

/-- One loop iteration preserves the termination invariant and strictly
decreases the measure. -/
theorem termInv_step {S A : Type} [DecidableEq S] {task : Task S A}
    {heuristic : SearchNode S A → HVal}
    {make_open_entry : SearchNode S A → HVal → Nat → Entry S A}
    (Hmk : PolicyNode make_open_entry) {R : Finset S}
    (hclosed : ∀ s ∈ R, ∀ p ∈ task.get_successor_states s, p.2 ∈ R)
    {st st' : AState S A}
    (hstep : astarStep task heuristic make_open_entry st = .next st')
    (hinv : TermInv R st) : TermInv R st' ∧ measureC2 R st' < measureC2 R st := by
  obtain ⟨e, rest, hpop, hcase⟩ := astarStep_next_cases hstep
  have hrest_mem : ∀ x ∈ rest, x ∈ st.openList := fun x hx =>
    (popMin_perm hpop).mem_iff.mpr (List.mem_cons_of_mem _ hx)
  have hlen : st.openList.length = rest.length + 1 := popMin_length hpop
  have htle' : TableLe st' := tableLe_step Hmk hstep hinv.tle
  rcases hcase with ⟨hstale, hst'⟩ | ⟨hstale, hgoal, hst'⟩
  · constructor
    · refine ⟨?_, ?_, ?_, ?_, htle'⟩ <;> rw [hst']
      · exact fun x hx => hinv.openR x (hrest_mem x hx)
      · exact hinv.keysR
      · exact hinv.keysNodup
      · exact hinv.valBound
    · rw [hst']
      unfold measureC2
      dsimp only
      omega
  · have hs₀R : e.node.state ∈ R := hinv.openR e (popMin_mem hpop)
    have hle := hinv.tle e (popMin_mem hpop)
    have hnotlt : ¬ costOf st.state_cost e.node.state < ((e.node.g : Nat) : ℕ∞) := by
      intro hlt
      rw [← staleCond_true_iff] at hlt
      rw [hstale] at hlt
      exact absurd hlt (by simp)
    have hceq : costOf st.state_cost e.node.state = ((e.node.g : Nat) : ℕ∞) :=
      le_antisymm hle (not_lt.mp hnotlt)
    have hlook₀ : lookupCost st.state_cost e.node.state = some e.node.g := by
      obtain ⟨c, hc, hcc⟩ := costOf_lt_top (lt_of_le_of_lt hle (by simp))
      rw [hceq] at hcc
      have : e.node.g = c := by exact_mod_cast hcc
      rw [hc, this]
    have key : ∀ (acc : List (Entry S A) × List (S × Nat) × Nat),
        ((∀ x ∈ acc.1, x.node.state ∈ R) ∧ (∀ kv ∈ acc.2.1, kv.1 ∈ R) ∧
          (acc.2.1.map Prod.fst).Nodup ∧ (∀ kv ∈ acc.2.1, kv.2 < acc.2.1.length) ∧
          lookupCost acc.2.1 e.node.state = some e.node.g ∧
          2 * sumCost R acc.2.1 + acc.1.length ≤
            2 * sumCost R st.state_cost + rest.length) →
        ((∀ x ∈ (expandSuccessors heuristic make_open_entry e.node
            (task.get_successor_states e.node.state) acc).1, x.node.state ∈ R) ∧
          (∀ kv ∈ (expandSuccessors heuristic make_open_entry e.node
            (task.get_successor_states e.node.state) acc).2.1, kv.1 ∈ R) ∧
          ((expandSuccessors heuristic make_open_entry e.node
            (task.get_successor_states e.node.state) acc).2.1.map Prod.fst).Nodup ∧
          (∀ kv ∈ (expandSuccessors heuristic make_open_entry e.node
            (task.get_successor_states e.node.state) acc).2.1, kv.2 <
            (expandSuccessors heuristic make_open_entry e.node
              (task.get_successor_states e.node.state) acc).2.1.length) ∧
          lookupCost (expandSuccessors heuristic make_open_entry e.node
            (task.get_successor_states e.node.state) acc).2.1 e.node.state =
            some e.node.g ∧
          2 * sumCost R (expandSuccessors heuristic make_open_entry e.node
            (task.get_successor_states e.node.state) acc).2.1 +
            (expandSuccessors heuristic make_open_entry e.node
              (task.get_successor_states e.node.state) acc).1.length ≤
            2 * sumCost R st.state_cost + rest.length) := by
      intro acc hacc
      refine expandSuccessors_induct heuristic make_open_entry e.node
        (fun t => (∀ x ∈ t.1, x.node.state ∈ R) ∧ (∀ kv ∈ t.2.1, kv.1 ∈ R) ∧
          (t.2.1.map Prod.fst).Nodup ∧ (∀ kv ∈ t.2.1, kv.2 < t.2.1.length) ∧
          lookupCost t.2.1 e.node.state = some e.node.g ∧
          2 * sumCost R t.2.1 + t.1.length ≤
            2 * sumCost R st.state_cost + rest.length) _ acc hacc ?_
      rintro opn sc tie op ns hmem ⟨hopenR, hkeysR, hnodup, hval, hlook, hmeas⟩ hinf hpush
      simp only at hopenR hkeysR hnodup hval hlook hmeas ⊢
      have hnsR : ns ∈ R := hclosed e.node.state hs₀R (op, ns) hmem
      have hg₀lt : e.node.g < sc.length := by
        have := hval (e.node.state, e.node.g) (lookupCost_some_mem hlook)
        exact this
      have hnew_le : e.node.g + 1 ≤ sc.length := hg₀lt
      have hns₀ : ns ≠ e.node.state := by
        intro hcontra
        have hp := (pushCond_true_iff sc ns (e.node.g + 1)).mp hpush
        rw [hcontra, costOf_eq_coe hlook] at hp
        have : e.node.g + 1 < e.node.g := by exact_mod_cast hp
        omega
      have hlt_getD : e.node.g + 1 < (lookupCost sc ns).getD R.card := by
        cases hl : lookupCost sc ns with
        | none =>
          have hlen_lt : sc.length < R.card :=
            keysLength_lt_card hnodup hkeysR hnsR hl
          simpa using lt_of_le_of_lt hnew_le hlen_lt
        | some c =>
          have := (pushCond_true_iff sc ns (e.node.g + 1)).mp hpush
          rw [costOf_eq_coe hl] at this
          have hnat : e.node.g + 1 < c := by exact_mod_cast this
          simpa using hnat
      have hsum : sumCost R (setCost sc ns (e.node.g + 1)) < sumCost R sc :=
        sumCost_setCost_lt hnsR hlt_getD
      refine ⟨?_, ?_, ?_, ?_, ?_, ?_⟩
      · intro x hx
        rcases List.mem_append.mp hx with hx | hx
        · exact hopenR x hx
        · rcases List.mem_singleton.mp hx with rfl
          rw [(Hmk _ _ _).1]
          exact hnsR
      · intro kv hkv
        rcases setCost_mem hkv with rfl | hkv'
        · exact hnsR
        · exact hkeysR kv hkv'
      · cases hl : lookupCost sc ns with
        | none =>
          rw [setCost_map_fst_none hl]
          rw [List.nodup_append]
          refine ⟨hnodup, List.nodup_singleton ns, ?_⟩
          intro x hx hx'
          rcases List.mem_singleton.mp hx' with rfl
          exact (lookupCost_eq_none_iff _ _).mp hl hx
        | some c =>
          rw [setCost_map_fst_some hl]
          exact hnodup
      · intro kv hkv
        cases hl : lookupCost sc ns with
        | none =>
          rw [length_setCost_none hl]
          rcases setCost_mem hkv with rfl | hkv'
          · exact lt_of_le_of_lt hnew_le (Nat.lt_succ_self _)
          · exact lt_trans (hval kv hkv') (Nat.lt_succ_self _)
        | some c =>
          rw [length_setCost_some hl]
          rcases setCost_mem hkv with rfl | hkv'
          · have := (pushCond_true_iff sc ns (e.node.g + 1)).mp hpush
            rw [costOf_eq_coe hl] at this
            have hnat : e.node.g + 1 < c := by exact_mod_cast this
            have hc := hval (ns, c) (lookupCost_some_mem hl)
            exact lt_trans hnat hc
          · exact hval kv hkv'
      · rw [lookupCost_setCost_ne sc _ (fun hcontra => hns₀ hcontra.symm)]
        exact hlook
      · rw [List.length_append, List.length_singleton]
        omega
    have hkey := key (rest, st.state_cost, st.node_tiebreaker)
      ⟨fun x hx => hinv.openR x (hrest_mem x hx), hinv.keysR, hinv.keysNodup,
        hinv.valBound, hlook₀, by simp⟩
    obtain ⟨hopenR', hkeysR', hnodup', hval', -, hmeas'⟩ := hkey
    constructor
    · refine ⟨?_, ?_, ?_, ?_, htle'⟩ <;> rw [hst']
      · exact hopenR'
      · exact hkeysR'
      · exact hnodup'
      · exact hval'
    · rw [hst']
      unfold measureC2
      dsimp only
      omega

theorem termInv_init {S A : Type} [DecidableEq S] (task : Task S A)
    (heuristic : SearchNode S A → HVal)
    (make_open_entry : SearchNode S A → HVal → Nat → Entry S A)
    (Hmk : PolicyNode make_open_entry) {R : Finset S}
    (hinitR : task.initial_state ∈ R) :
    TermInv R (initState task heuristic make_open_entry) := by
  refine ⟨?_, ?_, ?_, ?_, tableLe_init task heuristic make_open_entry Hmk⟩
  · intro e he
    have hopen : (initState task heuristic make_open_entry).openList =
        [make_open_entry (make_root_node task.initial_state)
          (heuristic (make_root_node task.initial_state)) 0] := rfl
    rw [hopen] at he
    rcases List.mem_singleton.mp he with rfl
    rw [(Hmk _ _ _).1]
    exact hinitR
  · intro kv hkv
    rcases List.mem_singleton.mp hkv with rfl
    exact hinitR
  · exact List.nodup_singleton _
  · intro kv hkv
    rcases List.mem_singleton.mp hkv with rfl
    exact Nat.zero_lt_one

theorem astarLoop_terminates_of_inv {S A : Type} [DecidableEq S] (task : Task S A)
    (heuristic : SearchNode S A → HVal)
    (make_open_entry : SearchNode S A → HVal → Nat → Entry S A)
    (Hmk : PolicyNode make_open_entry) {R : Finset S}
    (hclosed : ∀ s ∈ R, ∀ p ∈ task.get_successor_states s, p.2 ∈ R) :
    ∀ (n : Nat) (st : AState S A), measureC2 R st ≤ n → TermInv R st →
      ∃ fuel, astarLoop fuel task heuristic make_open_entry st ≠ .outOfFuel := by
  intro n
  induction n with
  | zero =>
    intro st hm hinv
    cases hstep : astarStep task heuristic make_open_entry st with
    | found p =>
      refine ⟨1, ?_⟩
      show (match astarStep task heuristic make_open_entry st with
        | .found p => SearchResult.solution p
        | .exhausted => SearchResult.noSolution
        | .next st' => astarLoop 0 task heuristic make_open_entry st') ≠ .outOfFuel
      rw [hstep]
      simp
    | exhausted =>
      refine ⟨1, ?_⟩
      show (match astarStep task heuristic make_open_entry st with
        | .found p => SearchResult.solution p
        | .exhausted => SearchResult.noSolution
        | .next st' => astarLoop 0 task heuristic make_open_entry st') ≠ .outOfFuel
      rw [hstep]
      simp
    | next st' =>
      obtain ⟨-, hdec⟩ := termInv_step Hmk hclosed hstep hinv
      omega
  | succ n ih =>
    intro st hm hinv
    cases hstep : astarStep task heuristic make_open_entry st with
    | found p =>
      refine ⟨1, ?_⟩
      show (match astarStep task heuristic make_open_entry st with
        | .found p => SearchResult.solution p
        | .exhausted => SearchResult.noSolution
        | .next st' => astarLoop 0 task heuristic make_open_entry st') ≠ .outOfFuel
      rw [hstep]
      simp
    | exhausted =>
      refine ⟨1, ?_⟩
      show (match astarStep task heuristic make_open_entry st with
        | .found p => SearchResult.solution p
        | .exhausted => SearchResult.noSolution
        | .next st' => astarLoop 0 task heuristic make_open_entry st') ≠ .outOfFuel
      rw [hstep]
      simp
    | next st' =>
      obtain ⟨hinv', hdec⟩ := termInv_step Hmk hclosed hstep hinv
      obtain ⟨fuel, hf⟩ := ih st' (by omega) hinv'
      refine ⟨fuel + 1, ?_⟩
      show (match astarStep task heuristic make_open_entry st with
        | .found p => SearchResult.solution p
        | .exhausted => SearchResult.noSolution
        | .next s => astarLoop fuel task heuristic make_open_entry s) ≠ .outOfFuel
      rw [hstep]
      exact hf

/-- C2: for every task whose reachable state space is contained in a finite
set closed under the successor relation, the search terminates for every
heuristic and every ordering policy: within some finite fuel the main loop
either returns a solution or exhausts the frontier and returns the
no-solution result. -/
theorem astar_search_terminates {S A : Type} [DecidableEq S] (task : Task S A)
    (heuristic : SearchNode S A → HVal)
    (make_open_entry : SearchNode S A → HVal → Nat → Entry S A)
    (Hmk : PolicyNode make_open_entry) (b : Bool) (R : Finset S)
    (hinitR : task.initial_state ∈ R)
    (hclosed : ∀ s ∈ R, ∀ p ∈ task.get_successor_states s, p.2 ∈ R) :
    ∃ fuel, (∃ plan, astar_search fuel task heuristic make_open_entry b =
        .solution plan) ∨
      astar_search fuel task heuristic make_open_entry b = .noSolution := by
  obtain ⟨fuel, hf⟩ := astarLoop_terminates_of_inv task heuristic make_open_entry Hmk
    hclosed (measureC2 R (initState task heuristic make_open_entry))
    (initState task heuristic make_open_entry) (le_refl _)
    (termInv_init task heuristic make_open_entry Hmk hinitR)
  refine ⟨fuel, ?_⟩
  have hdef : astar_search fuel task heuristic make_open_entry b =
      astarLoop fuel task heuristic make_open_entry
        (initState task heuristic make_open_entry) := rfl
  cases hres : astarLoop fuel task heuristic make_open_entry
      (initState task heuristic make_open_entry) with
  | solution p => exact Or.inl ⟨p, hdef.trans hres⟩
  | noSolution => exact Or.inr (hdef.trans hres)
  | outOfFuel => exact absurd hres hf

/-- Witness for C2: the chain task terminates inside the closed finite state
set `{0, ..., 5}` with an arbitrary policy and heuristic. -/
theorem astar_search_terminates_witness :
    (0 ∈ Finset.range 6 ∧
      ∀ s ∈ Finset.range 6, ∀ p ∈ exTask.get_successor_states s, p.2 ∈ Finset.range 6) ∧
    (∃ fuel, (∃ plan, astar_search fuel exTask exHeur ordered_node_greedy_best_first
        false = .solution plan) ∨
      astar_search fuel exTask exHeur ordered_node_greedy_best_first false =
        .noSolution) := by
  have hinitR : exTask.initial_state ∈ Finset.range 6 := by decide
  have hclosed : ∀ s ∈ Finset.range 6, ∀ p ∈ exTask.get_successor_states s,
      p.2 ∈ Finset.range 6 := by decide
  exact ⟨⟨hinitR, hclosed⟩, astar_search_terminates exTask exHeur
    ordered_node_greedy_best_first policyNode_greedy false (Finset.range 6)
    hinitR hclosed⟩

/-! ## Claim C1: optimality of A* with an admissible, consistent heuristic -/

/-- Paths of the task's state-transition system, counting operators. -/
inductive PathLen {S A : Type} (task : Task S A) : S → S → Nat → Prop where
  | refl (s : S) : PathLen task s s 0
  | tail {s t u : S} {n : Nat} (a : A) (hp : PathLen task s t n)
      (he : (a, u) ∈ task.get_successor_states t) : PathLen task s u (n + 1)

/-- Search nodes actually constructible by the search: the root carries the
initial state, and each child extends its parent by a successor edge. -/
inductive ValidNode {S A : Type} (task : Task S A) : SearchNode S A → Prop where
  | root : ValidNode task (.root task.initial_state)
  | child {p : SearchNode S A} (a : A) {s : S} (hp : ValidNode task p)
      (he : (a, s) ∈ task.get_successor_states p.state) :
      ValidNode task (.child p a s)

theorem validNode_pathLen {S A : Type} {task : Task S A} {nd : SearchNode S A}
    (h : ValidNode task nd) : PathLen task task.initial_state nd.state nd.g := by
  induction h with
  | root => exact PathLen.refl _
  | child a hp he ih => exact PathLen.tail a ih he

theorem extract_solution_length {S A : Type} (nd : SearchNode S A) :
    nd.extract_solution.length = nd.g := by
  induction nd with
  | root s => rfl
  | child p a s ih =>
    show (p.extract_solution ++ [a]).length = p.g + 1
    rw [List.length_append, List.length_singleton, ih]

/-- There is a plan of `n` operators: a path from the initial state to some
goal state. -/
def GoalPathLen {S A : Type} (task : Task S A) (n : Nat) : Prop :=
  ∃ t, PathLen task task.initial_state t n ∧ task.goal_reached t = true

theorem pathLen_trans {S A : Type} {task : Task S A} {s t u : S} {m n : Nat}
    (h1 : PathLen task s t m) (h2 : PathLen task t u n) :
    PathLen task s u (m + n) := by
  induction h2 with
  | refl => exact h1
  | tail a hp he ih => exact PathLen.tail a ih he

/-- Consistency telescoped along a path: `hs s ≤ k + hs t`. -/
theorem hs_chain {S A : Type} {task : Task S A} {hs : S → WithTop ℚ}
    (HCons : ∀ s, ∀ p ∈ task.get_successor_states s, hs s ≤ 1 + hs p.2)
    {s t : S} {k : Nat} (hp : PathLen task s t k) :
    hs s ≤ ((k : ℚ) : WithTop ℚ) + hs t := by
  induction hp with
  | refl => simp
  | tail a hp he ih =>
    rename_i t' u' n
    have hcons := HCons t' (a, u') he
    calc hs s ≤ ((n : ℚ) : WithTop ℚ) + hs t' := ih
      _ ≤ ((n : ℚ) : WithTop ℚ) + (1 + hs u') := add_le_add_left hcons _
      _ = (((n + 1 : Nat) : ℚ) : WithTop ℚ) + hs u' := by
          rw [← add_assoc]
          congr 1
          push_cast
          rfl

/-- The states reachable from the initial state in at most `n` steps. -/
def reachSet {S A : Type} [DecidableEq S] (task : Task S A) : Nat → Finset S
  | 0 => {task.initial_state}
  | n + 1 => reachSet task n ∪ (reachSet task n).biUnion
      (fun s => ((task.get_successor_states s).map Prod.snd).toFinset)

theorem reachSet_mono {S A : Type} [DecidableEq S] (task : Task S A) {m n : Nat}
    (h : m ≤ n) : reachSet task m ⊆ reachSet task n := by
  induction n with
  | zero =>
    obtain rfl : m = 0 := Nat.le_zero.mp h
    exact subset_refl _
  | succ n ih =>
    by_cases hm : m = n + 1
    · subst hm
      exact subset_refl _
    · have hmn : m ≤ n := Nat.lt_succ_iff.mp (lt_of_le_of_ne h hm)
      exact subset_trans (ih hmn) Finset.subset_union_left

theorem pathLen_mem_reachSet {S A : Type} [DecidableEq S] {task : Task S A}
    {s : S} {k : Nat} (h : PathLen task task.initial_state s k) :
    s ∈ reachSet task k := by
  induction h with
  | refl => exact Finset.mem_singleton_self _
  | tail a hp he ih =>
    rename_i s' t' u' n
    show u' ∈ reachSet task n ∪ (reachSet task n).biUnion _
    refine Finset.mem_union_right _ (Finset.mem_biUnion.mpr ⟨t', ih, ?_⟩)
    rw [List.mem_toFinset]
    exact List.mem_map.mpr ⟨(a, u'), he, rfl⟩

/-- All properties the A* optimality argument needs of a live frontier
entry. -/
def EntryOK {S A : Type} (task : Task S A) (heuristic : SearchNode S A → HVal)
    (x : Entry S A) : Prop :=
  ValidNode task x.node ∧ x.h = heuristic x.node ∧
    x.f = ((x.node.g : ℚ) : WithTop ℚ) + x.h ∧ (0 < x.node.g → x.h ≠ ⊤)

/-- The global invariant of the A* run, with ghost list `E` of states
expanded so far. -/
structure AInv {S A : Type} [DecidableEq S] (task : Task S A)
    (heuristic : SearchNode S A → HVal) (hs : S → WithTop ℚ)
    (st : AState S A) (E : List S) : Prop where
  entryOK : ∀ x ∈ st.openList, EntryOK task heuristic x
  tle : TableLe st
  initZero : lookupCost st.state_cost task.initial_state = some 0
  distinctG : st.openList.Pairwise
    (fun a b => a.node.state = b.node.state → a.node.g ≠ b.node.g)
  expTable : ∀ s ∈ E, ∃ c, lookupCost st.state_cost s = some c ∧
    ∀ k, PathLen task task.initial_state s k → c ≤ k
  expSucc : ∀ s ∈ E, ∀ p ∈ task.get_successor_states s,
    hs p.2 = ⊤ ∨ costOf st.state_cost p.2 ≤ costOf st.state_cost s + 1
  tableWitness : ∀ u, u ∉ E → ∀ c, lookupCost st.state_cost u = some c →
    ∃ x ∈ st.openList, x.node.state = u ∧ x.node.g = c
  expNotGoal : ∀ s ∈ E, task.goal_reached s = false
  expStale : ∀ x ∈ st.openList, x.node.state ∈ E →
    costOf st.state_cost x.node.state < (x.node.g : ℕ∞)
  expNodup : E.Nodup

theorem entry_f_le_of_not_lt {S A : Type} {x e : Entry S A} (h : ¬ entryLt x e) :
    e.f ≤ x.f := by
  have hle : entryKey e ≤ entryKey x := not_lt.mp h
  unfold entryKey at hle
  rcases (Prod.Lex.le_iff _ _).mp hle with hf | ⟨hf, -⟩
  · exact le_of_lt hf
  · exact le_of_eq hf

theorem expand_costOf_mono {S A : Type} [DecidableEq S]
    (heuristic : SearchNode S A → HVal)
    (make_open_entry : SearchNode S A → HVal → Nat → Entry S A)
    (pop_node : SearchNode S A) (L : List (A × S))
    (acc : List (Entry S A) × List (S × Nat) × Nat) (u : S) :
    costOf (expandSuccessors heuristic make_open_entry pop_node L acc).2.1 u ≤
      costOf acc.2.1 u := by
  refine expandSuccessors_induct heuristic make_open_entry pop_node
    (fun t => ∀ v, costOf t.2.1 v ≤ costOf acc.2.1 v) L acc (fun v => le_refl _) ?_ u
  intro opn sc tie op ns _ hP _ hpush
  intro v
  by_cases hv : v = ns
  · subst hv
    rw [costOf_setCost_self]
    exact le_trans (le_of_lt ((pushCond_true_iff sc v _).mp hpush)) (hP v)
  · rw [costOf_setCost_ne sc _ hv]
    exact hP v

/-- After expanding the whole successor list, every successor is either a
pruned dead end or recorded in the table at cost at most `pop.g + 1`. -/
theorem expand_covers {S A : Type} [DecidableEq S]
    (heuristic : SearchNode S A → HVal)
    (make_open_entry : SearchNode S A → HVal → Nat → Entry S A)
    (pop_node : SearchNode S A) :
    ∀ (L : List (A × S)) (acc : List (Entry S A) × List (S × Nat) × Nat),
      ∀ p ∈ L, heuristic (make_child_node pop_node p.1 p.2) = ⊤ ∨
        costOf (expandSuccessors heuristic make_open_entry pop_node L acc).2.1 p.2 ≤
          ((pop_node.g + 1 : Nat) : ℕ∞) := by
  intro L
  induction L with
  | nil => intro acc p hp; exact absurd hp (List.not_mem_nil p)
  | cons q rest ih =>
    intro acc p hp
    obtain ⟨op, ns⟩ := q
    obtain ⟨opn, sc, tie⟩ := acc
    rw [expandSuccessors]
    by_cases hinf : heuristic (make_child_node pop_node op ns) = ⊤
    · rw [if_pos hinf]
      rcases List.mem_cons.mp hp with rfl | hp'
      · exact Or.inl hinf
      · exact ih (opn, sc, tie) p hp'
    · rw [if_neg hinf]
      by_cases hpush : pushCond sc ns (pop_node.g + 1) = true
      · rw [if_pos hpush]
        rcases List.mem_cons.mp hp with rfl | hp'
        · refine Or.inr ?_
          refine le_trans (expand_costOf_mono heuristic make_open_entry pop_node rest _ _) ?_
          show costOf (setCost sc ns (pop_node.g + 1)) ns ≤ _
          rw [costOf_setCost_self]
        · exact ih _ p hp'
      · rw [if_neg hpush]
        rcases List.mem_cons.mp hp with rfl | hp'
        · refine Or.inr ?_
          refine le_trans (expand_costOf_mono heuristic make_open_entry pop_node rest _ _) ?_
          show costOf sc ns ≤ _
          have : ¬ ((pop_node.g + 1 : Nat) : ℕ∞) < costOf sc ns := by
            intro hc
            exact hpush ((pushCond_true_iff sc ns _).mpr hc)
          exact not_lt.mp this
        · exact ih _ p hp'

/-- The frontier-cover lemma: along any path from the initial state to a
state with finite heuristic, either the endpoint has been expanded, or some
frontier entry has priority key at most the path length plus the endpoint's
heuristic value. -/
theorem cover_lemma {S A : Type} [DecidableEq S] {task : Task S A}
    {heuristic : SearchNode S A → HVal} {hs : S → WithTop ℚ}
    {st : AState S A} {E : List S}
    (HFac : ∀ nd : SearchNode S A, heuristic nd = hs nd.state)
    (HCons : ∀ s, ∀ p ∈ task.get_successor_states s, hs s ≤ 1 + hs p.2)
    (hinv : AInv task heuristic hs st E) :
    ∀ {t : S} {k : Nat}, PathLen task task.initial_state t k → hs t ≠ ⊤ →
      t ∈ E ∨ ∃ x ∈ st.openList, x.f ≤ ((k : ℚ) : WithTop ℚ) + hs t := by
  intro t k hp
  induction hp with
  | refl =>
    intro hfin
    by_cases hE : task.initial_state ∈ E
    · exact Or.inl hE
    · obtain ⟨x, hx, hxs, hxg⟩ :=
        hinv.tableWitness task.initial_state hE 0 hinv.initZero
      obtain ⟨-, hh, hf, -⟩ := hinv.entryOK x hx
      refine Or.inr ⟨x, hx, ?_⟩
      rw [hf, hh, HFac, hxs, hxg]
  | tail a hp he ih =>
    rename_i t' u' n
    intro hfin
    have hconsEdge : hs t' ≤ 1 + hs u' := HCons t' (a, u') he
    have hfin' : hs t' ≠ ⊤ :=
      ne_top_of_le_ne_top (WithTop.add_ne_top.mpr ⟨by simp, hfin⟩) hconsEdge
    rcases ih hfin' with hE | ⟨x, hx, hxf⟩
    · rcases hinv.expSucc t' hE (a, u') he with htop | hle
      · exact absurd htop hfin
      · obtain ⟨ct, hct, hmin⟩ := hinv.expTable t' hE
        have hctn : ct ≤ n := hmin n hp
        have hcu_le : costOf st.state_cost u' ≤ ((n + 1 : Nat) : ℕ∞) := by
          rw [costOf_eq_coe hct] at hle
          refine le_trans hle ?_
          have : ((ct : ℕ∞)) + 1 ≤ ((n : ℕ∞)) + 1 :=
            add_le_add_right (by exact_mod_cast hctn) 1
          refine le_trans this (le_of_eq ?_)
          push_cast
          rfl
        have hlt_top : costOf st.state_cost u' < ⊤ :=
          lt_of_le_of_lt hcu_le (by exact_mod_cast WithTop.coe_lt_top (n + 1))
        obtain ⟨cu, hcu, hcueq⟩ := costOf_lt_top hlt_top
        by_cases huE : u' ∈ E
        · exact Or.inl huE
        · obtain ⟨x, hx, hxs, hxg⟩ := hinv.tableWitness u' huE cu hcu
          obtain ⟨-, hh, hf, -⟩ := hinv.entryOK x hx
          refine Or.inr ⟨x, hx, ?_⟩
          rw [hf, hh, HFac, hxs, hxg]
          have hcun : cu ≤ n + 1 := by
            rw [hcueq] at hcu_le
            exact_mod_cast hcu_le
          refine add_le_add_right ?_ _
          exact_mod_cast hcun
    · refine Or.inr ⟨x, hx, ?_⟩
      calc x.f ≤ ((n : ℚ) : WithTop ℚ) + hs t' := hxf
        _ ≤ ((n : ℚ) : WithTop ℚ) + (1 + hs u') := add_le_add_left hconsEdge _
        _ = (((n + 1 : Nat) : ℚ) : WithTop ℚ) + hs u' := by
            rw [← add_assoc]
            congr 1
            push_cast
            rfl

/-- While a goal state with a path of `k` operators is not yet returned,
some frontier entry has priority key at most `k`. -/
theorem goal_cover {S A : Type} [DecidableEq S] {task : Task S A}
    {heuristic : SearchNode S A → HVal} {hs : S → WithTop ℚ}
    {st : AState S A} {E : List S}
    (HFac : ∀ nd : SearchNode S A, heuristic nd = hs nd.state)
    (HNonneg : ∀ s, 0 ≤ hs s)
    (HCons : ∀ s, ∀ p ∈ task.get_successor_states s, hs s ≤ 1 + hs p.2)
    (HAdm : ∀ s t k, PathLen task s t k → task.goal_reached t = true →
      hs s ≤ ((k : ℚ) : WithTop ℚ))
    (hinv : AInv task heuristic hs st E)
    {t : S} {k : Nat} (hp : PathLen task task.initial_state t k)
    (hgoal : task.goal_reached t = true) :
    ∃ x ∈ st.openList, x.f ≤ ((k : ℚ) : WithTop ℚ) := by
  have hzero : hs t = 0 := by
    have h1 := HAdm t t 0 (PathLen.refl t) hgoal
    have h2 := HNonneg t
    simp only [Nat.cast_zero] at h1
    exact le_antisymm (by exact_mod_cast h1) h2
  have hfin : hs t ≠ ⊤ := by rw [hzero]; simp
  rcases cover_lemma HFac HCons hinv hp hfin with hE | ⟨x, hx, hxf⟩
  · have := hinv.expNotGoal t hE
    rw [hgoal] at this
    exact absurd this (by simp)
  · refine ⟨x, hx, ?_⟩
    rw [hzero, add_zero] at hxf
    exact hxf

/-- A popped entry that passes the staleness check carries a minimal-length
path to its state. -/
theorem popped_min_g {S A : Type} [DecidableEq S] {task : Task S A}
    {heuristic : SearchNode S A → HVal} {hs : S → WithTop ℚ}
    {st : AState S A} {E : List S}
    (HFac : ∀ nd : SearchNode S A, heuristic nd = hs nd.state)
    (HCons : ∀ s, ∀ p ∈ task.get_successor_states s, hs s ≤ 1 + hs p.2)
    (hinv : AInv task heuristic hs st E) {e : Entry S A} {rest : List (Entry S A)}
    (hpop : popMin st.openList = some (e, rest))
    (hstale : staleCond st.state_cost e.node.state e.node.g = false) :
    ∀ k, PathLen task task.initial_state e.node.state k → e.node.g ≤ k := by
  intro k hp
  by_contra hcon
  have hklt : k < e.node.g := Nat.lt_of_not_le hcon
  have hmem : e ∈ st.openList := popMin_mem hpop
  obtain ⟨hval, hh, hf, hfin'⟩ := hinv.entryOK e hmem
  have hgpos : 0 < e.node.g := Nat.lt_of_le_of_lt (Nat.zero_le k) hklt
  have hhfin : e.h ≠ ⊤ := hfin' hgpos
  have hhs : e.h = hs e.node.state := by rw [hh, HFac]
  have hsfin : hs e.node.state ≠ ⊤ := hhs ▸ hhfin
  rcases cover_lemma HFac HCons hinv hp hsfin with hE | ⟨x, hx, hxf⟩
  · have hcost := hinv.expStale e hmem hE
    rw [← staleCond_true_iff] at hcost
    rw [hstale] at hcost
    exact absurd hcost (by simp)
  · have hle : e.f ≤ x.f := entry_f_le_of_not_lt (popMin_min hpop x hx)
    have hef : e.f = ((e.node.g : ℚ) : WithTop ℚ) + hs e.node.state := by
      rw [hf, hhs]
    have hstrict : ((k : ℚ) : WithTop ℚ) + hs e.node.state <
        ((e.node.g : ℚ) : WithTop ℚ) + hs e.node.state := by
      refine WithTop.add_lt_add_right hsfin ?_
      exact_mod_cast hklt
    have : e.f < e.f := lt_of_le_of_lt (le_trans hle hxf) (hef ▸ hstrict)
    exact absurd this (lt_irrefl _)

theorem entryRel_symm {S A : Type} : Symmetric
    (fun a b : Entry S A => a.node.state = b.node.state → a.node.g ≠ b.node.g) := by
  intro a b h hs hg
  exact h hs.symm hg.symm

theorem aInv_init {S A : Type} [DecidableEq S] (task : Task S A)
    (heuristic : SearchNode S A → HVal) (hs : S → WithTop ℚ) :
    AInv task heuristic hs (initState task heuristic ordered_node_astar) [] := by
  have hopen : (initState task heuristic ordered_node_astar).openList =
      [ordered_node_astar (make_root_node task.initial_state)
        (heuristic (make_root_node task.initial_state)) 0] := rfl
  have hsc : (initState task heuristic ordered_node_astar).state_cost =
      [(task.initial_state, 0)] := rfl
  have hlooksing : ∀ u c, lookupCost [(task.initial_state, 0)] u = some c →
      u = task.initial_state ∧ c = 0 := by
    intro u c hc
    by_cases hu : u = task.initial_state
    · subst hu
      simp [lookupCost] at hc
      exact ⟨rfl, hc.symm⟩
    · simp [lookupCost, hu] at hc
  refine ⟨?_, tableLe_init task heuristic ordered_node_astar policyNode_astar, ?_, ?_,
    ?_, ?_, ?_, ?_, ?_, List.nodup_nil⟩
  · intro x hx
    rw [hopen] at hx
    rcases List.mem_singleton.mp hx with rfl
    refine ⟨ValidNode.root, rfl, rfl, ?_⟩
    intro hc
    exact absurd hc (by simp [make_root_node, SearchNode.g])
  · rw [hsc]
    simp [lookupCost]
  · rw [hopen]
    exact List.pairwise_singleton _ _
  · intro s hsmem
    exact absurd hsmem (List.not_mem_nil s)
  · intro s hsmem
    exact absurd hsmem (List.not_mem_nil s)
  · intro u _ c hc
    rw [hsc] at hc
    obtain ⟨rfl, rfl⟩ := hlooksing u c hc
    rw [hopen]
    refine ⟨_, List.mem_singleton_self _, ?_, ?_⟩
    · rfl
    · rfl
  · intro s hsmem
    exact absurd hsmem (List.not_mem_nil s)
  · intro x _ hxE
    exact absurd hxE (List.not_mem_nil _)

theorem aInv_step_stale {S A : Type} [DecidableEq S] {task : Task S A}
    {heuristic : SearchNode S A → HVal} {hs : S → WithTop ℚ}
    {st : AState S A} {E : List S}
    (hinv : AInv task heuristic hs st E) {e : Entry S A} {rest : List (Entry S A)}
    (hpop : popMin st.openList = some (e, rest))
    (hstale : staleCond st.state_cost e.node.state e.node.g = true)
    {b' : HVal} :
    AInv task heuristic hs
      { st with openList := rest, besth := b' } E := by
  have hmem : ∀ x ∈ rest, x ∈ st.openList := fun x hx =>
    (popMin_perm hpop).mem_iff.mpr (List.mem_cons_of_mem _ hx)
  have hpair : (e :: rest).Pairwise
      (fun a b : Entry S A => a.node.state = b.node.state → a.node.g ≠ b.node.g) :=
    ((popMin_perm hpop).pairwise_iff (fun h hs hg => h hs.symm hg.symm)).mp
      hinv.distinctG
  refine ⟨?_, ?_, hinv.initZero, ?_, hinv.expTable, hinv.expSucc, ?_,
    hinv.expNotGoal, ?_, hinv.expNodup⟩
  · exact fun x hx => hinv.entryOK x (hmem x hx)
  · exact fun x hx => hinv.tle x (hmem x hx)
  · exact hpair.of_cons
  · intro u hu c hc
    obtain ⟨x, hx, hxs, hxg⟩ := hinv.tableWitness u hu c hc
    have hxe : x ≠ e := by
      intro hcontra
      subst hcontra
      have hcost : costOf st.state_cost x.node.state = (c : ℕ∞) := by
        rw [hxs]; exact costOf_eq_coe hc
      have hlt := (staleCond_true_iff _ _ _).mp hstale
      rw [hcost, hxg] at hlt
      exact absurd hlt (lt_irrefl _)
    have hxrest : x ∈ rest := by
      have := (popMin_perm hpop).mem_iff.mp hx
      rcases List.mem_cons.mp this with h' | h'
      · exact absurd h' hxe
      · exact h'
    exact ⟨x, hxrest, hxs, hxg⟩
  · exact fun x hx hxE => hinv.expStale x (hmem x hx) hxE

theorem aInv_step_expand {S A : Type} [DecidableEq S] {task : Task S A}
    {heuristic : SearchNode S A → HVal} {hs : S → WithTop ℚ}
    {st : AState S A} {E : List S}
    (HFac : ∀ nd : SearchNode S A, heuristic nd = hs nd.state)
    (hinv : AInv task heuristic hs st E) {e : Entry S A} {rest : List (Entry S A)}
    (hpop : popMin st.openList = some (e, rest))
    (hstale : staleCond st.state_cost e.node.state e.node.g = false)
    (hgoal : task.goal_reached e.node.state = false)
    (hmin : ∀ k, PathLen task task.initial_state e.node.state k → e.node.g ≤ k)
    (b' : HVal) :
    e.node.state ∉ E ∧
    AInv task heuristic hs
      { openList := (expandSuccessors heuristic ordered_node_astar e.node
          (task.get_successor_states e.node.state)
          (rest, st.state_cost, st.node_tiebreaker)).1,
        state_cost := (expandSuccessors heuristic ordered_node_astar e.node
          (task.get_successor_states e.node.state)
          (rest, st.state_cost, st.node_tiebreaker)).2.1,
        node_tiebreaker := (expandSuccessors heuristic ordered_node_astar e.node
          (task.get_successor_states e.node.state)
          (rest, st.state_cost, st.node_tiebreaker)).2.2,
        besth := b', counter := st.counter + 1, expansions := st.expansions + 1 }
      (E ++ [e.node.state]) := by
  have hmem : e ∈ st.openList := popMin_mem hpop
  obtain ⟨hval_e, hh_e, hf_e, hfin_e⟩ := hinv.entryOK e hmem
  have hle₀ := hinv.tle e hmem
  have hnotlt : ¬ costOf st.state_cost e.node.state < ((e.node.g : Nat) : ℕ∞) := by
    intro hlt
    rw [← staleCond_true_iff] at hlt
    rw [hstale] at hlt
    exact absurd hlt (by simp)
  have hcost₀ : costOf st.state_cost e.node.state = ((e.node.g : Nat) : ℕ∞) :=
    le_antisymm hle₀ (not_lt.mp hnotlt)
  have hlook₀ : lookupCost st.state_cost e.node.state = some e.node.g := by
    obtain ⟨c, hc, hcc⟩ := costOf_lt_top (lt_of_le_of_lt hle₀ (by simp))
    rw [hcost₀] at hcc
    have : e.node.g = c := by exact_mod_cast hcc
    rw [hc, this]
  have hs₀E : e.node.state ∉ E := by
    intro hE
    have := hinv.expStale e hmem hE
    rw [hcost₀] at this
    exact absurd this (lt_irrefl _)
  have hpath_e : PathLen task task.initial_state e.node.state e.node.g :=
    validNode_pathLen hval_e
  have hrest_mem : ∀ x ∈ rest, x ∈ st.openList := fun x hx =>
    (popMin_perm hpop).mem_iff.mpr (List.mem_cons_of_mem _ hx)
  have hpair : (e :: rest).Pairwise
      (fun a b : Entry S A => a.node.state = b.node.state → a.node.g ≠ b.node.g) :=
    ((popMin_perm hpop).pairwise_iff (fun h h1 h2 => h h1.symm h2.symm)).mp
      hinv.distinctG
  have hpair_head : ∀ x ∈ rest, e.node.state = x.node.state → e.node.g ≠ x.node.g :=
    (List.pairwise_cons.mp hpair).1
  have hpair_rest := (List.pairwise_cons.mp hpair).2
  -- the fold invariant
  have key : ∀ (acc : List (Entry S A) × List (S × Nat) × Nat),
      ((∀ x ∈ acc.1, EntryOK task heuristic x) ∧
       (∀ u, costOf acc.2.1 u ≤ costOf st.state_cost u) ∧
       costOf acc.2.1 e.node.state = ((e.node.g : Nat) : ℕ∞) ∧
       (∀ t ∈ E, costOf acc.2.1 t = costOf st.state_cost t) ∧
       (∀ u, u ∉ E → u ≠ e.node.state → ∀ c, lookupCost acc.2.1 u = some c →
         ∃ x ∈ acc.1, x.node.state = u ∧ x.node.g = c) ∧
       (∀ x ∈ acc.1, costOf acc.2.1 x.node.state ≤ (x.node.g : ℕ∞)) ∧
       acc.1.Pairwise (fun a b => a.node.state = b.node.state → a.node.g ≠ b.node.g) ∧
       (∀ x ∈ acc.1, (x.node.state ∈ E ∨ x.node.state = e.node.state) →
         costOf acc.2.1 x.node.state < (x.node.g : ℕ∞)) ∧
       lookupCost acc.2.1 task.initial_state = some 0) →
      ((∀ x ∈ (expandSuccessors heuristic ordered_node_astar e.node
          (task.get_successor_states e.node.state) acc).1, EntryOK task heuristic x) ∧
       (∀ u, costOf (expandSuccessors heuristic ordered_node_astar e.node
          (task.get_successor_states e.node.state) acc).2.1 u ≤
          costOf st.state_cost u) ∧
       costOf (expandSuccessors heuristic ordered_node_astar e.node
          (task.get_successor_states e.node.state) acc).2.1 e.node.state =
          ((e.node.g : Nat) : ℕ∞) ∧
       (∀ t ∈ E, costOf (expandSuccessors heuristic ordered_node_astar e.node
          (task.get_successor_states e.node.state) acc).2.1 t =
          costOf st.state_cost t) ∧
       (∀ u, u ∉ E → u ≠ e.node.state → ∀ c,
          lookupCost (expandSuccessors heuristic ordered_node_astar e.node
            (task.get_successor_states e.node.state) acc).2.1 u = some c →
          ∃ x ∈ (expandSuccessors heuristic ordered_node_astar e.node
            (task.get_successor_states e.node.state) acc).1,
            x.node.state = u ∧ x.node.g = c) ∧
       (∀ x ∈ (expandSuccessors heuristic ordered_node_astar e.node
          (task.get_successor_states e.node.state) acc).1,
          costOf (expandSuccessors heuristic ordered_node_astar e.node
            (task.get_successor_states e.node.state) acc).2.1 x.node.state ≤
            (x.node.g : ℕ∞)) ∧
       (expandSuccessors heuristic ordered_node_astar e.node
          (task.get_successor_states e.node.state) acc).1.Pairwise
          (fun a b => a.node.state = b.node.state → a.node.g ≠ b.node.g) ∧
       (∀ x ∈ (expandSuccessors heuristic ordered_node_astar e.node
          (task.get_successor_states e.node.state) acc).1,
          (x.node.state ∈ E ∨ x.node.state = e.node.state) →
          costOf (expandSuccessors heuristic ordered_node_astar e.node
            (task.get_successor_states e.node.state) acc).2.1 x.node.state <
            (x.node.g : ℕ∞)) ∧
       lookupCost (expandSuccessors heuristic ordered_node_astar e.node
          (task.get_successor_states e.node.state) acc).2.1 task.initial_state =
          some 0) := by
    intro acc hacc
    refine expandSuccessors_induct heuristic ordered_node_astar e.node
      (fun t =>
        (∀ x ∈ t.1, EntryOK task heuristic x) ∧
        (∀ u, costOf t.2.1 u ≤ costOf st.state_cost u) ∧
        costOf t.2.1 e.node.state = ((e.node.g : Nat) : ℕ∞) ∧
        (∀ tt ∈ E, costOf t.2.1 tt = costOf st.state_cost tt) ∧
        (∀ u, u ∉ E → u ≠ e.node.state → ∀ c, lookupCost t.2.1 u = some c →
          ∃ x ∈ t.1, x.node.state = u ∧ x.node.g = c) ∧
        (∀ x ∈ t.1, costOf t.2.1 x.node.state ≤ (x.node.g : ℕ∞)) ∧
        t.1.Pairwise (fun a b => a.node.state = b.node.state → a.node.g ≠ b.node.g) ∧
        (∀ x ∈ t.1, (x.node.state ∈ E ∨ x.node.state = e.node.state) →
          costOf t.2.1 x.node.state < (x.node.g : ℕ∞)) ∧
        lookupCost t.2.1 task.initial_state = some 0) _ acc hacc ?_
    rintro opn sc tie op ns hmemL ⟨c1, c2, c3, c4, c5, c6, c7, c8, c9⟩ hinf hpush
    simp only at c1 c2 c3 c4 c5 c6 c7 c8 c9 ⊢
    have hplt : ((e.node.g + 1 : Nat) : ℕ∞) < costOf sc ns :=
      (pushCond_true_iff sc ns _).mp hpush
    have hnsE : ns ∉ E := by
      intro hE
      obtain ⟨cns, hcns, hminns⟩ := hinv.expTable ns hE
      have hpathns : PathLen task task.initial_state ns (e.node.g + 1) :=
        PathLen.tail op hpath_e hmemL
      have hcle : cns ≤ e.node.g + 1 := hminns _ hpathns
      have h4 := c4 ns hE
      rw [costOf_eq_coe hcns] at h4
      rw [h4] at hplt
      have : e.node.g + 1 < cns := by exact_mod_cast hplt
      omega
    have hnss₀ : ns ≠ e.node.state := by
      intro h
      rw [h, c3] at hplt
      have : e.node.g + 1 < e.node.g := by exact_mod_cast hplt
      omega
    have hnsinit : ns ≠ task.initial_state := by
      intro h
      rw [h, costOf_eq_coe c9] at hplt
      have : e.node.g + 1 < 0 := by exact_mod_cast hplt
      omega
    refine ⟨?_, ?_, ?_, ?_, ?_, ?_, ?_, ?_, ?_⟩
    · intro x hx
      rcases List.mem_append.mp hx with hx | hx
      · exact c1 x hx
      · rcases List.mem_singleton.mp hx with rfl
        exact ⟨ValidNode.child op hval_e hmemL, rfl, rfl, fun _ => hinf⟩
    · intro u
      by_cases hu : u = ns
      · subst hu
        rw [costOf_setCost_self]
        exact le_trans (le_of_lt hplt) (c2 u)
      · rw [costOf_setCost_ne sc _ hu]
        exact c2 u
    · rw [costOf_setCost_ne sc _ (fun h => hnss₀ h.symm)]
      exact c3
    · intro tt htt
      rw [costOf_setCost_ne sc _ (fun h => hnsE (by rw [← h]; exact htt))]
      exact c4 tt htt
    · intro u huE hus₀ c hc
      by_cases hu : u = ns
      · rw [hu]
        rw [hu, lookupCost_setCost_self, Option.some_inj] at hc
        refine ⟨ordered_node_astar (make_child_node e.node op ns)
          (heuristic (make_child_node e.node op ns)) (tie + 1),
          List.mem_append_right _ (List.mem_singleton_self _), rfl, ?_⟩
        rw [← hc]
        rfl
      · rw [lookupCost_setCost_ne sc _ hu] at hc
        obtain ⟨x, hx, hxs, hxg⟩ := c5 u huE hus₀ c hc
        exact ⟨x, List.mem_append_left _ hx, hxs, hxg⟩
    · intro x hx
      rcases List.mem_append.mp hx with hx | hx
      · by_cases hxs : x.node.state = ns
        · have h6 := c6 x hx
          rw [hxs] at h6 ⊢
          rw [costOf_setCost_self]
          exact le_of_lt (lt_of_lt_of_le hplt h6)
        · rw [costOf_setCost_ne sc _ hxs]
          exact c6 x hx
      · rcases List.mem_singleton.mp hx with rfl
        show costOf (setCost sc ns (e.node.g + 1)) ns ≤ _
        rw [costOf_setCost_self]
        rfl
    · rw [List.pairwise_append]
      refine ⟨c7, List.pairwise_singleton _ _, ?_⟩
      intro x hx y hy
      rcases List.mem_singleton.mp hy with rfl
      intro hxy
      have h6 := c6 x hx
      rw [hxy] at h6
      show x.node.g ≠ e.node.g + 1
      have : ((e.node.g + 1 : Nat) : ℕ∞) < (x.node.g : ℕ∞) := lt_of_lt_of_le hplt h6
      have hlt : e.node.g + 1 < x.node.g := by exact_mod_cast this
      omega
    · intro x hx hxE
      rcases List.mem_append.mp hx with hx | hx
      · have hxns : x.node.state ≠ ns := by
          intro h
          rcases hxE with hE' | hE'
          · exact hnsE (h ▸ hE')
          · exact hnss₀ (h ▸ hE')
        rw [costOf_setCost_ne sc _ hxns]
        exact c8 x hx hxE
      · rcases List.mem_singleton.mp hx with rfl
        rcases hxE with hE' | hE'
        · exact absurd hE' hnsE
        · exact absurd hE' hnss₀
    · rw [lookupCost_setCost_ne sc _ (fun h => hnsinit h.symm)]
      exact c9
  have hbase : (∀ x ∈ rest, EntryOK task heuristic x) ∧
      (∀ u, costOf st.state_cost u ≤ costOf st.state_cost u) ∧
      costOf st.state_cost e.node.state = ((e.node.g : Nat) : ℕ∞) ∧
      (∀ t ∈ E, costOf st.state_cost t = costOf st.state_cost t) ∧
      (∀ u, u ∉ E → u ≠ e.node.state → ∀ c, lookupCost st.state_cost u = some c →
        ∃ x ∈ rest, x.node.state = u ∧ x.node.g = c) ∧
      (∀ x ∈ rest, costOf st.state_cost x.node.state ≤ (x.node.g : ℕ∞)) ∧
      rest.Pairwise (fun a b => a.node.state = b.node.state → a.node.g ≠ b.node.g) ∧
      (∀ x ∈ rest, (x.node.state ∈ E ∨ x.node.state = e.node.state) →
        costOf st.state_cost x.node.state < (x.node.g : ℕ∞)) ∧
      lookupCost st.state_cost task.initial_state = some 0 := by
    refine ⟨?_, fun u => le_refl _, hcost₀, fun t _ => rfl, ?_, ?_, hpair_rest, ?_,
      hinv.initZero⟩
    · exact fun x hx => hinv.entryOK x (hrest_mem x hx)
    · intro u huE hus₀ c hc
      obtain ⟨x, hx, hxs, hxg⟩ := hinv.tableWitness u huE c hc
      have hxe : x ≠ e := by
        intro h
        rw [h] at hxs
        exact hus₀ hxs.symm
      have hxrest : x ∈ rest := by
        have := (popMin_perm hpop).mem_iff.mp hx
        rcases List.mem_cons.mp this with h' | h'
        · exact absurd h' hxe
        · exact h'
      exact ⟨x, hxrest, hxs, hxg⟩
    · exact fun x hx => hinv.tle x (hrest_mem x hx)
    · intro x hx hxE
      rcases hxE with hE' | hE'
      · exact hinv.expStale x (hrest_mem x hx) hE'
      · have hne : e.node.g ≠ x.node.g := hpair_head x hx hE'.symm
        have hlex : costOf st.state_cost x.node.state ≤ (x.node.g : ℕ∞) :=
          hinv.tle x (hrest_mem x hx)
        rw [hE'] at hlex ⊢
        rw [hcost₀]
        have hlenat : e.node.g ≤ x.node.g := by
          have := hlex
          rw [hcost₀] at this
          exact_mod_cast this
        have : e.node.g < x.node.g := lt_of_le_of_ne hlenat hne
        exact_mod_cast this
  obtain ⟨k1, k2, k3, k4, k5, k6, k7, k8, k9⟩ :=
    key (rest, st.state_cost, st.node_tiebreaker) hbase
  refine ⟨hs₀E, ?_, ?_, k9, k7, ?_, ?_, ?_, ?_, ?_, ?_⟩
  · exact k1
  · exact k6
  · -- expTable for E ++ [s₀]
    intro t ht
    rcases List.mem_append.mp ht with htE | hts
    · obtain ⟨c, hc, hcmin⟩ := hinv.expTable t htE
      have h4 := k4 t htE
      rw [costOf_eq_coe hc] at h4
      have hlt_top : costOf (expandSuccessors heuristic ordered_node_astar e.node
          (task.get_successor_states e.node.state)
          (rest, st.state_cost, st.node_tiebreaker)).2.1 t < ⊤ := by
        rw [h4]
        exact WithTop.coe_lt_top c
      obtain ⟨c', hc', hcc'⟩ := costOf_lt_top hlt_top
      rw [h4] at hcc'
      have hceq : c' = c := by exact_mod_cast hcc'.symm
      rw [hceq] at hc'
      exact ⟨c, hc', hcmin⟩
    · rcases List.mem_singleton.mp hts with rfl
      have hlt_top : costOf (expandSuccessors heuristic ordered_node_astar e.node
          (task.get_successor_states e.node.state)
          (rest, st.state_cost, st.node_tiebreaker)).2.1 e.node.state < ⊤ := by
        rw [k3]
        exact WithTop.coe_lt_top _
      obtain ⟨c', hc', hcc'⟩ := costOf_lt_top hlt_top
      rw [k3] at hcc'
      have hceq : c' = e.node.g := by exact_mod_cast hcc'.symm
      rw [hceq] at hc'
      exact ⟨e.node.g, hc', hmin⟩
  · -- expSucc for E ++ [s₀]
    intro t ht p hp
    rcases List.mem_append.mp ht with htE | hts
    · rcases hinv.expSucc t htE p hp with htop | hle
      · exact Or.inl htop
      · refine Or.inr ?_
        rw [k4 t htE]
        exact le_trans (k2 p.2) hle
    · rcases List.mem_singleton.mp hts with rfl
      rcases expand_covers heuristic ordered_node_astar e.node
          (task.get_successor_states e.node.state)
          (rest, st.state_cost, st.node_tiebreaker) p hp with htop | hle
      · refine Or.inl ?_
        rw [HFac] at htop
        exact htop
      · refine Or.inr ?_
        rw [k3]
        refine le_trans hle (le_of_eq ?_)
        push_cast
        rfl
  · -- tableWitness
    intro u hu c hc
    have huE : u ∉ E := fun h => hu (List.mem_append_left _ h)
    have hus₀ : u ≠ e.node.state := fun h =>
      hu (List.mem_append_right _ (h ▸ List.mem_singleton_self _))
    exact k5 u huE hus₀ c hc
  · -- expNotGoal
    intro t ht
    rcases List.mem_append.mp ht with htE | hts
    · exact hinv.expNotGoal t htE
    · rcases List.mem_singleton.mp hts with rfl
      exact hgoal
  · -- expStale
    intro x hx hxE
    refine k8 x hx ?_
    rcases List.mem_append.mp hxE with h' | h'
    · exact Or.inl h'
    · exact Or.inr (List.mem_singleton.mp h')
  · -- expNodup
    rw [List.nodup_append]
    refine ⟨hinv.expNodup, List.nodup_singleton _, ?_⟩
    intro x hx hx'
    rcases List.mem_singleton.mp hx' with rfl
    exact hs₀E hx

theorem nodup_length_le_card {S : Type} [DecidableEq S] {l : List S} {R : Finset S}
    (hnodup : l.Nodup) (hsub : ∀ s ∈ l, s ∈ R) : l.length ≤ R.card := by
  have h1 : l.toFinset.card = l.length := List.toFinset_card_of_nodup hnodup
  have h2 : l.toFinset ⊆ R := fun x hx => hsub x (List.mem_toFinset.mp hx)
  rw [← h1]
  exact Finset.card_le_card h2

/-- Main induction: from any loop state satisfying the invariant, with a
shortest goal path of `Cstar` operators available, enough fuel makes the A*
loop return a plan of exactly `Cstar` operators. -/
theorem astar_reaches_optimal {S A : Type} [DecidableEq S] (task : Task S A)
    (heuristic : SearchNode S A → HVal) (hs : S → WithTop ℚ)
    (HFac : ∀ nd : SearchNode S A, heuristic nd = hs nd.state)
    (HNonneg : ∀ s, 0 ≤ hs s)
    (HCons : ∀ s, ∀ p ∈ task.get_successor_states s, hs s ≤ 1 + hs p.2)
    (HAdm : ∀ s t k, PathLen task s t k → task.goal_reached t = true →
      hs s ≤ ((k : ℚ) : WithTop ℚ))
    {tgoal : S} {Cstar : Nat}
    (hgoalpath : PathLen task task.initial_state tgoal Cstar)
    (hgoaltrue : task.goal_reached tgoal = true)
    (hCmin : ∀ k, GoalPathLen task k → Cstar ≤ k) :
    ∀ (n1 n2 : Nat) (st : AState S A) (E : List S),
      AInv task heuristic hs st E →
      (∀ s ∈ E, s ∈ reachSet task Cstar) →
      (reachSet task Cstar).card - E.length = n1 →
      st.openList.length = n2 →
      ∃ fuel plan,
        astarLoop fuel task heuristic ordered_node_astar st = .solution plan ∧
        plan.length = Cstar := by
  intro n1
  induction n1 using Nat.strong_induction_on with
  | _ n1 ih1 =>
    intro n2
    induction n2 using Nat.strong_induction_on with
    | _ n2 ih2 =>
      intro st E hinv hEB hn1 hn2
      cases hstep : astarStep task heuristic ordered_node_astar st with
      | exhausted =>
        have hopen := astarStep_exhausted_iff.mp hstep
        obtain ⟨x, hx, -⟩ :=
          goal_cover HFac HNonneg HCons HAdm hinv hgoalpath hgoaltrue
        rw [hopen] at hx
        exact absurd hx (List.not_mem_nil x)
      | found p =>
        obtain ⟨e, rest, hpop, hstale, hgoalp, hpeq⟩ := astarStep_found_cases hstep
        obtain ⟨x, hx, hxf⟩ :=
          goal_cover HFac HNonneg HCons HAdm hinv hgoalpath hgoaltrue
        have hef_le : e.f ≤ x.f := entry_f_le_of_not_lt (popMin_min hpop x hx)
        obtain ⟨hval, hh, hf, -⟩ := hinv.entryOK e (popMin_mem hpop)
        have hhnn : (0 : WithTop ℚ) ≤ e.h := by
          rw [hh, HFac]
          exact HNonneg _
        have hge : ((e.node.g : ℚ) : WithTop ℚ) ≤ e.f := by
          rw [hf]
          exact le_add_of_nonneg_right hhnn
        have hcast : ((e.node.g : ℚ) : WithTop ℚ) ≤ ((Cstar : ℚ) : WithTop ℚ) :=
          le_trans hge (le_trans hef_le hxf)
        have hgle : e.node.g ≤ Cstar := by exact_mod_cast hcast
        have hgoalpath_e : GoalPathLen task e.node.g :=
          ⟨e.node.state, validNode_pathLen hval, hgoalp⟩
        have hgeq : e.node.g = Cstar := le_antisymm hgle (hCmin _ hgoalpath_e)
        refine ⟨1, p, ?_, ?_⟩
        · show (match astarStep task heuristic ordered_node_astar st with
            | .found q => SearchResult.solution q
            | .exhausted => SearchResult.noSolution
            | .next st' => astarLoop 0 task heuristic ordered_node_astar st') =
              .solution p
          rw [hstep]
        · rw [hpeq, extract_solution_length, hgeq]
      | next st' =>
        obtain ⟨e, rest, hpop, hcase⟩ := astarStep_next_cases hstep
        rcases hcase with ⟨hstale, hst'⟩ | ⟨hstale, hgoalp, hst'⟩
        · have hinv' : AInv task heuristic hs st' E := by
            rw [hst']
            exact aInv_step_stale hinv hpop hstale
          have hlenpop := popMin_length hpop
          have hopenlen : st'.openList.length = rest.length := by
            rw [hst']
          obtain ⟨fuel, plan, hrun, hlen'⟩ := ih2 rest.length (by omega) st' E hinv'
            hEB hn1 hopenlen
          refine ⟨fuel + 1, plan, ?_, hlen'⟩
          show (match astarStep task heuristic ordered_node_astar st with
            | .found q => SearchResult.solution q
            | .exhausted => SearchResult.noSolution
            | .next s => astarLoop fuel task heuristic ordered_node_astar s) =
              .solution plan
          rw [hstep]
          exact hrun
        · have hminE := popped_min_g HFac HCons hinv hpop hstale
          obtain ⟨hs₀E, hinv'⟩ := aInv_step_expand HFac hinv hpop hstale hgoalp hminE
            (if e.h < st.besth then e.h else st.besth)
          have hinv'' : AInv task heuristic hs st' (E ++ [e.node.state]) := by
            rw [hst']
            exact hinv'
          obtain ⟨x, hx, hxf⟩ :=
            goal_cover HFac HNonneg HCons HAdm hinv hgoalpath hgoaltrue
          have hef_le : e.f ≤ x.f := entry_f_le_of_not_lt (popMin_min hpop x hx)
          obtain ⟨hval, hh, hf, -⟩ := hinv.entryOK e (popMin_mem hpop)
          have hhnn : (0 : WithTop ℚ) ≤ e.h := by
            rw [hh, HFac]
            exact HNonneg _
          have hge : ((e.node.g : ℚ) : WithTop ℚ) ≤ e.f := by
            rw [hf]
            exact le_add_of_nonneg_right hhnn
          have hcast : ((e.node.g : ℚ) : WithTop ℚ) ≤ ((Cstar : ℚ) : WithTop ℚ) :=
            le_trans hge (le_trans hef_le hxf)
          have hgle : e.node.g ≤ Cstar := by exact_mod_cast hcast
          have hsB : e.node.state ∈ reachSet task Cstar :=
            reachSet_mono task hgle (pathLen_mem_reachSet (validNode_pathLen hval))
          have hEB' : ∀ s ∈ E ++ [e.node.state], s ∈ reachSet task Cstar := by
            intro s hsE
            rcases List.mem_append.mp hsE with h' | h'
            · exact hEB s h'
            · rcases List.mem_singleton.mp h' with rfl
              exact hsB
          have hlen_le : (E ++ [e.node.state]).length ≤ (reachSet task Cstar).card :=
            nodup_length_le_card hinv''.expNodup hEB'
          rw [List.length_append, List.length_singleton] at hlen_le
          obtain ⟨fuel, plan, hrun, hlen'⟩ := ih1
            ((reachSet task Cstar).card - (E ++ [e.node.state]).length)
            (by rw [List.length_append, List.length_singleton]; omega)
            st'.openList.length st' (E ++ [e.node.state]) hinv'' hEB' rfl rfl
          refine ⟨fuel + 1, plan, ?_, hlen'⟩
          show (match astarStep task heuristic ordered_node_astar st with
            | .found q => SearchResult.solution q
            | .exhausted => SearchResult.noSolution
            | .next s => astarLoop fuel task heuristic ordered_node_astar s) =
              .solution plan
          rw [hstep]
          exact hrun

/-- C1: for every solvable task, A* search with the standard ordering policy
and an admissible, consistent, nonnegative state heuristic returns (for
sufficient fuel) an operator sequence whose length is exactly the minimum
possible number of operators of any plan. -/
theorem astar_search_optimal {S A : Type} [DecidableEq S] (task : Task S A)
    (heuristic : SearchNode S A → HVal) (hs : S → WithTop ℚ) (b : Bool)
    (HFac : ∀ nd : SearchNode S A, heuristic nd = hs nd.state)
    (HNonneg : ∀ s, 0 ≤ hs s)
    (HAdm : ∀ s t k, PathLen task s t k → task.goal_reached t = true →
      hs s ≤ ((k : ℚ) : WithTop ℚ))
    (HCons : ∀ s, ∀ p ∈ task.get_successor_states s, hs s ≤ 1 + hs p.2)
    (HSolv : ∃ n, GoalPathLen task n) :
    ∃ fuel plan,
      astar_search fuel task heuristic ordered_node_astar b = .solution plan ∧
      GoalPathLen task plan.length ∧
      ∀ k, GoalPathLen task k → plan.length ≤ k := by
  classical
  have hCex : ∃ C, GoalPathLen task C ∧ ∀ k, GoalPathLen task k → C ≤ k :=
    ⟨Nat.find HSolv, Nat.find_spec HSolv, fun k hk => Nat.find_min' HSolv hk⟩
  obtain ⟨Cstar, ⟨tgoal, hpath, hgoal⟩, hCmin⟩ := hCex
  obtain ⟨fuel, plan, hrun, hleneq⟩ := astar_reaches_optimal task heuristic hs
    HFac HNonneg HCons HAdm hpath hgoal hCmin
    ((reachSet task Cstar).card - ([] : List S).length)
    (initState task heuristic ordered_node_astar).openList.length
    (initState task heuristic ordered_node_astar) []
    (aInv_init task heuristic hs)
    (fun s hsE => absurd hsE (List.not_mem_nil s)) rfl rfl
  refine ⟨fuel, plan, hrun, ?_, ?_⟩
  · rw [hleneq]
    exact ⟨tgoal, hpath, hgoal⟩
  · intro k hk
    rw [hleneq]
    exact hCmin k hk

/-- The everywhere-zero heuristic (trivially admissible and consistent). -/
def exZeroHeur : SearchNode Nat Nat → HVal := fun _ => ((0 : ℚ) : WithTop ℚ)

theorem exChainPath : PathLen exTask 0 5 5 := by
  have p1 : PathLen exTask 0 1 1 := PathLen.tail 0 (PathLen.refl 0) (by decide)
  have p2 : PathLen exTask 0 2 2 := PathLen.tail 1 p1 (by decide)
  have p3 : PathLen exTask 0 3 3 := PathLen.tail 2 p2 (by decide)
  have p4 : PathLen exTask 0 4 4 := PathLen.tail 3 p3 (by decide)
  exact PathLen.tail 4 p4 (by decide)

/-- Witness for C1: the chain task with the zero heuristic is solvable and
A* returns an optimal-length plan. -/
theorem astar_search_optimal_witness :
    (∃ n, GoalPathLen exTask n) ∧
    (∃ fuel plan,
      astar_search fuel exTask exZeroHeur ordered_node_astar false = .solution plan ∧
      GoalPathLen exTask plan.length ∧
      ∀ k, GoalPathLen exTask k → plan.length ≤ k) := by
  have hsolv : ∃ n, GoalPathLen exTask n := ⟨5, 5, exChainPath, by decide⟩
  refine ⟨hsolv, ?_⟩
  exact astar_search_optimal exTask exZeroHeur (fun _ => ((0 : ℚ) : WithTop ℚ)) false
    (fun _ => rfl)
    (fun _ => le_refl _)
    (fun s t k _ _ => by
      show ((0 : ℚ) : WithTop ℚ) ≤ ((k : ℚ) : WithTop ℚ)
      exact_mod_cast (Nat.cast_nonneg k : (0 : ℚ) ≤ (k : ℚ)))
    (fun s p _ => by norm_num)
    hsolv

end AStar
